import Mathlib

/-!
Verification development for the memory-aware LRU cache decorator
(`lru_cache.py`).  The stateful Python code is shallowly embedded as pure
state-passing functions:

- the circular doubly linked list of links is modelled as an arena
  `nodes : Nat → Node K R` of nodes addressed by allocation index, together
  with an allocation counter `nalloc`; the Python statement
  `link = [last, root, key, result]` allocates the fresh index `nalloc`;
- the `cache` dictionary is an association list `List (K × Nat)` from keys to
  node indices (the unbounded variant stores results directly, as the source
  does); dictionary lookup is `List.find?` on the key, which matches Python
  dict semantics once keys are unique;
- exceptions are modelled with `Except`: the wrapped computation is passed as
  an `Except E R` value, and the memory probe of the `use_memory_up_to`
  variant as an `Except E Nat` value (its reading at the moment of the call).

Every definition follows the source line by line; field writes happen in the
same order as the Python assignments, including the aliasing-sensitive
multiple assignments.
-/

namespace LruCache

/-- One link of the circular doubly linked list: `[PREV, NEXT, KEY, RESULT]`
with `PREV, NEXT, KEY, RESULT = 0, 1, 2, 3` (lines 100, 108-109).  The root
sentinel carries `none` in the key and result fields, mirroring `None`. -/
structure Node (K R : Type) where
  prev : Nat
  next : Nat
  key : Option K
  result : Option R

/-- State captured by the closures of `decorating_function` (lines 102-109):
the link arena, the allocation counter, the current root index, the `cache`
dictionary, and the `hits`, `misses` and `full` nonlocals. -/
structure LState (K R : Type) where
  nodes : Nat → Node K R
  nalloc : Nat
  root : Nat
  cache : List (K × Nat)
  hits : Nat
  misses : Nat
  full : Bool

variable {K R E : Type}

/-- Initial closure state (lines 103-109): empty dict, zero counters, a single
self-linked root node at index 0. -/
def initState : LState K R :=
  { nodes := fun _ => ⟨0, 0, none, none⟩
    nalloc := 1
    root := 0
    cache := []
    hits := 0
    misses := 0
    full := false }

/-- Dictionary lookup `cache_get(key)` (line 106): the first entry whose key
compares equal, if any. -/
def cacheGet [BEq K] (c : List (K × Nat)) (k : K) : Option Nat :=
  (c.find? (fun p => p.1 == k)).map (fun p => p.2)

/-- Dictionary deletion `del cache[oldkey]` (line 236): remove the entries
whose key compares equal (exactly one, for a well-formed dict). -/
def cacheDel [BEq K] (c : List (K × Nat)) (k : K) : List (K × Nat) :=
  c.filter (fun p => !(p.1 == k))

/-- Write the `NEXT` field of the node at index `i`. -/
def setNext (f : Nat → Node K R) (i v : Nat) : Nat → Node K R :=
  Function.update f i { f i with next := v }

/-- Write the `PREV` field of the node at index `i`. -/
def setPrev (f : Nat → Node K R) (i v : Nat) : Nat → Node K R :=
  Function.update f i { f i with prev := v }

/-- Write the `KEY` field of the node at index `i`. -/
def setKey (f : Nat → Node K R) (i : Nat) (k : Option K) : Nat → Node K R :=
  Function.update f i { f i with key := k }

/-- Write the `RESULT` field of the node at index `i`. -/
def setResult (f : Nat → Node K R) (i : Nat) (r : Option R) : Nat → Node K R :=
  Function.update f i { f i with result := r }

/-- Hit path of the bounded wrappers (lines 201-211 and 119-129): unlink the
found link, relink it in front of the root, and return the stored result.
The field writes follow the Python statements in order; `last` is read from
the root only after the two unlinking writes, exactly as in the source. -/
def promote (s : LState K R) (link : Nat) : Option R × LState K R :=
  let linkPrev := (s.nodes link).prev
  let linkNext := (s.nodes link).next
  let result := (s.nodes link).result
  let n1 := setNext s.nodes linkPrev linkNext
  let n2 := setPrev n1 linkNext linkPrev
  let last := (n2 s.root).prev
  let n3 := setNext n2 last link
  let n4 := setPrev n3 s.root link
  let n5 := setPrev n4 link last
  let n6 := setNext n5 link s.root
  (result, { s with nodes := n6 })

/-- Eviction branch (lines 221-240 and 139-158): store the new key and result
in the old root, rotate the root to the oldest link, empty that link, delete
the old key from the dict and insert the new one.  A `none` old key cannot
occur for a reachable state (the root always has at least one non-root
successor when `full` holds); in that impossible case Python would raise
`KeyError` on the `del`, and the model leaves the dict unchanged. -/
def evictInsert [BEq K] (s : LState K R) (k : K) (r : R) : LState K R :=
  let oldroot := s.root
  let n1 := setKey s.nodes oldroot (some k)
  let n2 := setResult n1 oldroot (some r)
  let newroot := (n2 oldroot).next
  let oldkey := (n2 newroot).key
  let n3 := setKey n2 newroot none
  let n4 := setResult n3 newroot none
  let c1 := match oldkey with
    | some ok => cacheDel s.cache ok
    | none => s.cache
  { s with nodes := n4, root := newroot, cache := c1 ++ [(k, oldroot)] }

/-- Fresh-insert branch (lines 242-245 and 160-163): allocate a new link in
front of the queue and insert it in the dict.  The multiple assignment
`last[NEXT] = root[PREV] = cache[key] = link` is performed left to right. -/
def freshInsert [BEq K] (s : LState K R) (k : K) (r : R) : LState K R :=
  let last := (s.nodes s.root).prev
  let link := s.nalloc
  let n1 := Function.update s.nodes link ⟨last, s.root, some k, some r⟩
  let n2 := setNext n1 last link
  let n3 := setPrev n2 s.root link
  { s with nodes := n3, nalloc := s.nalloc + 1, cache := s.cache ++ [(k, link)] }

/-- Second locked section of the fixed-capacity wrapper (lines 213-247),
entered after `user_function` returned `r`: the racing-insert re-check, the
eviction branch, or the fresh insert followed by the `full` update
`full = (len(cache) >= maxsize)` (line 246); in each branch `misses += 1`. -/
def fixedCallPost [BEq K] (maxsize : Nat) (s : LState K R) (k : K) (r : R) :
    LState K R :=
  if (cacheGet s.cache k).isSome then
    { s with misses := s.misses + 1 }
  else if s.full then
    let s1 := evictInsert s k r
    { s1 with misses := s1.misses + 1 }
  else
    let s1 := freshInsert s k r
    { s1 with full := decide (s1.cache.length ≥ maxsize), misses := s1.misses + 1 }

/-- Fixed-capacity wrapper (lines 195-248).  `compute` is the outcome of
`user_function(*args, **kwds)`; on a miss a raised exception propagates with
the state untouched (line 212 sits between the two locked sections).  The
returned value of a hit is the stored `RESULT` field, an `Option R` that is
`some` for every reachable state. -/
def fixedCall [BEq K] (maxsize : Nat) (s : LState K R) (k : K)
    (compute : Except E R) : Except E (Option R) × LState K R :=
  match cacheGet s.cache k with
  | some link =>
    let p := promote s link
    (Except.ok p.1, { p.2 with hits := p.2.hits + 1 })
  | none =>
    match compute with
    | Except.error e => (Except.error e, s)
    | Except.ok r => (Except.ok (some r), fixedCallPost maxsize s k r)

/-- Second locked section of the `use_memory_up_to` wrapper (lines 131-167).
It differs from the fixed-capacity one only in the fresh-insert branch, where
`full = (psutil.virtual_memory().available < use_memory_up_to)` (lines
164-165) queries the probe; a probe failure propagates after the insert has
already happened, before `misses += 1` and before `full` is written. -/
def memCallPost [BEq K] (threshold : Nat) (probe : Except E Nat)
    (s : LState K R) (k : K) (r : R) : Except E (Option R) × LState K R :=
  if (cacheGet s.cache k).isSome then
    (Except.ok (some r), { s with misses := s.misses + 1 })
  else if s.full then
    let s1 := evictInsert s k r
    (Except.ok (some r), { s1 with misses := s1.misses + 1 })
  else
    let s1 := freshInsert s k r
    match probe with
    | Except.error e => (Except.error e, s1)
    | Except.ok avail =>
      (Except.ok (some r),
        { s1 with full := decide (avail < threshold), misses := s1.misses + 1 })

/-- The `use_memory_up_to` wrapper (lines 113-167).  `probe` is the value the
memory probe would report at this call, or its failure. -/
def memCall [BEq K] (threshold : Nat) (probe : Except E Nat) (s : LState K R)
    (k : K) (compute : Except E R) : Except E (Option R) × LState K R :=
  match cacheGet s.cache k with
  | some link =>
    let p := promote s link
    (Except.ok p.1, { p.2 with hits := p.2.hits + 1 })
  | none =>
    match compute with
    | Except.error e => (Except.error e, s)
    | Except.ok r => memCallPost threshold probe s k r

/-- Closure state of the unbounded (`maxsize is None`) wrapper: the dict maps
keys directly to results (lines 180-191). -/
structure UState (K R : Type) where
  cache : List (K × R)
  hits : Nat
  misses : Nat

/-- Initial state of the unbounded wrapper. -/
def uInit : UState K R := ⟨[], 0, 0⟩

/-- Unbounded wrapper (lines 180-191): plain dict caching, no ordering. -/
def uCall [BEq K] (s : UState K R) (k : K) (compute : Except E R) :
    Except E R × UState K R :=
  match (s.cache.find? (fun p => p.1 == k)).map (fun p => p.2) with
  | some r => (Except.ok r, { s with hits := s.hits + 1 })
  | none =>
    match compute with
    | Except.error e => (Except.error e, s)
    | Except.ok r =>
      (Except.ok r, { s with cache := s.cache ++ [(k, r)], misses := s.misses + 1 })

/-- Closure state of the `maxsize == 0` wrapper: only the counters are ever
touched (lines 171-176). -/
structure DState where
  hits : Nat
  misses : Nat

/-- Initial state of the `maxsize == 0` wrapper. -/
def dInit : DState := ⟨0, 0⟩

/-- The `maxsize == 0` wrapper (lines 171-176): no caching, no key building;
`misses` is incremented only after the call returns successfully. -/
def dCall (s : DState) (compute : Except E R) : Except E R × DState :=
  match compute with
  | Except.error e => (Except.error e, s)
  | Except.ok r => (Except.ok r, { s with misses := s.misses + 1 })

/-- The `CacheInfo` named tuple (line 20). -/
structure CacheInfo where
  hits : Nat
  misses : Nat
  maxsize : Option Nat
  currsize : Nat
  deriving DecidableEq

/-- `cache_info()` (lines 250-253). -/
def cacheInfo (maxsize : Option Nat) (s : LState K R) : CacheInfo :=
  ⟨s.hits, s.misses, maxsize, s.cache.length⟩

/-- `cache_clear()` (lines 255-262): empty the dict, relink the current root
to itself with empty key and result fields, and reset the counters. -/
def cacheClear (s : LState K R) : LState K R :=
  { s with nodes := Function.update s.nodes s.root ⟨s.root, s.root, none, none⟩
           cache := []
           hits := 0
           misses := 0
           full := false }

/-- Run the fixed-capacity wrapper over a list of keys with a deterministic,
total compute function, collecting the outcome of every call. -/
def runFixedT [BEq K] (maxsize : Nat) (f : K → R) :
    List K → LState K R → List (Except Unit (Option R)) × LState K R
  | [], s => ([], s)
  | k :: ks, s =>
    let p := fixedCall (E := Unit) maxsize s k (Except.ok (f k))
    let rest := runFixedT maxsize f ks p.2
    (p.1 :: rest.1, rest.2)

/-- Final state of a fixed-capacity run. -/
def runFixed [BEq K] (maxsize : Nat) (f : K → R) (ks : List K)
    (s : LState K R) : LState K R :=
  (runFixedT maxsize f ks s).2

/-- Run the `use_memory_up_to` wrapper over key and probe-reading pairs with a
deterministic, total compute function, collecting the outcome of every
call. -/
def runMemT [BEq K] (threshold : Nat) (f : K → R) :
    List (K × Nat) → LState K R → List (Except Unit (Option R)) × LState K R
  | [], s => ([], s)
  | kp :: kps, s =>
    let p := memCall (E := Unit) threshold (Except.ok kp.2) s kp.1 (Except.ok (f kp.1))
    let rest := runMemT threshold f kps p.2
    (p.1 :: rest.1, rest.2)

/-- Final state of a `use_memory_up_to` run. -/
def runMem [BEq K] (threshold : Nat) (f : K → R) (kps : List (K × Nat))
    (s : LState K R) : LState K R :=
  (runMemT threshold f kps s).2

/-- Run the unbounded wrapper over a list of keys, collecting outcomes. -/
def runUT [BEq K] (f : K → R) :
    List K → UState K R → List (Except Unit R) × UState K R
  | [], s => ([], s)
  | k :: ks, s =>
    let p := uCall (E := Unit) s k (Except.ok (f k))
    let rest := runUT f ks p.2
    (p.1 :: rest.1, rest.2)

/-- Operation alphabet for single-threaded interaction sequences with a
bounded cache: a call with a key, or `cache_clear()`. -/
inductive CacheOp (K : Type) where
  | call (k : K)
  | clear

/-- Run the fixed-capacity wrapper over a sequence of operations. -/
def runOps [BEq K] (maxsize : Nat) (f : K → R) :
    List (CacheOp K) → LState K R → LState K R
  | [], s => s
  | CacheOp.call k :: ops, s =>
    runOps maxsize f ops (fixedCall (E := Unit) maxsize s k (Except.ok (f k))).2
  | CacheOp.clear :: ops, s => runOps maxsize f ops (cacheClear s)


/-! ### The circular list as a cyclic chain of adjacencies -/

/-- Doubly-linked adjacency: `x` points forward to `y` and `y` back to `x`. -/
def adjacent (nodes : Nat → Node K R) (x y : Nat) : Prop :=
  (nodes x).next = y ∧ (nodes y).prev = x

/-- The arena realises the circular order `root, ids..., root`. -/
def cyclic (nodes : Nat → Node K R) (root : Nat) (ids : List Nat) : Prop :=
  List.Chain' (adjacent nodes) (root :: ids ++ [root])

/-- Walk the circular list forward, starting at a given node and stopping at
the root sentinel; fuel bounds the number of visited nodes. -/
def walkIds (nodes : Nat → Node K R) (root : Nat) : Nat → Nat → List Nat
  | 0, _ => []
  | fuel + 1, i => if i = root then [] else i :: walkIds nodes root fuel (nodes i).next

/-- Node indices reachable by walking from `root.next` to `root.prev`. -/
def walk (s : LState K R) : List Nat :=
  walkIds s.nodes s.root s.nalloc ((s.nodes s.root).next)

/-- Keys reachable by walking from `root.next` to `root.prev` (line order is
from least recently used to most recently used). -/
def walkKeys (s : LState K R) : List (Option K) :=
  (walk s).map (fun i => (s.nodes i).key)

/-! ### The representation invariant tying the arena to an abstract list -/

/-- The state `s` represents the abstract recency list `kvs` (least recently
used first), realised by the arena nodes `ids` in the same order.  This is
the well-formedness invariant of every reachable bounded-cache state. -/
structure Models [BEq K] (s : LState K R) (ids : List Nat) (kvs : List (K × R)) : Prop where
  len : ids.length = kvs.length
  nodup : (s.root :: ids).Nodup
  bound : ∀ i ∈ s.root :: ids, i < s.nalloc
  chain : cyclic s.nodes s.root ids
  rootKey : (s.nodes s.root).key = none
  rootRes : (s.nodes s.root).result = none
  nodeData : ∀ q ∈ kvs.zip ids,
    (s.nodes q.2).key = some q.1.1 ∧ (s.nodes q.2).result = some q.1.2
  cachePerm : s.cache.Perm ((kvs.zip ids).map (fun q => (q.1.1, q.2)))
  keysNodup : (kvs.map Prod.fst).Nodup

/-! ### The abstract recency-list semantics refined by the pointer machine -/

/-- Abstract effect of one bounded-wrapper call on the recency list (least
recently used first), given the fullness verdict `wasFull` that the wrapper
read: a hit moves the entry to the most-recent end; a miss appends, evicting
the least-recent entry first when the cache was full. -/
def absStep [BEq K] (wasFull : Bool) (kvs : List (K × R)) (k : K) (r : R) :
    List (K × R) :=
  match kvs.find? (fun p => p.1 == k) with
  | some p => (kvs.eraseP (fun p => p.1 == k)) ++ [(k, p.2)]
  | none => if wasFull then kvs.tail ++ [(k, r)] else kvs ++ [(k, r)]

/-- Invariant of a reachable fixed-capacity cache state: a well-formed arena
representing `kvs`, with the `full` flag meaning that the entry count has
reached `maxsize` (which it never exceeds). -/
def GoodF [BEq K] (n : Nat) (s : LState K R) (kvs : List (K × R)) : Prop :=
  (∃ ids, Models s ids kvs) ∧ s.full = decide (kvs.length ≥ n) ∧ kvs.length ≤ n

/-- Abstract run of a fixed-capacity operation sequence on the recency list. -/
def absOpsRun [BEq K] (n : Nat) (f : K → R) :
    List (CacheOp K) → List (K × R) → List (K × R)
  | [], l => l
  | CacheOp.call k :: ops, l =>
    absOpsRun n f ops (absStep (decide (l.length ≥ n)) l k (f k))
  | CacheOp.clear :: ops, _ => absOpsRun n f ops []

/-! ### Last-access indices of a call sequence -/

/-- Index of the last occurrence of `k` in the call sequence `p`, if any. -/
def lastAccAux [BEq K] : List K → K → Option Nat
  | [], _ => none
  | a :: rest, k =>
    match lastAccAux rest k with
    | some j => some (j + 1)
    | none => if a == k then some 0 else none

/-- The keys `kl` are ordered by strictly increasing last access in `p`, and
each of them has been accessed. -/
def AccSorted [BEq K] (p : List K) (kl : List K) : Prop :=
  (∀ c ∈ kl, (lastAccAux p c).isSome) ∧
    kl.Pairwise (fun x y => ∀ jx jy, lastAccAux p x = some jx →
      lastAccAux p y = some jy → jx < jy)

/-! ### Abstract runs of call sequences -/

/-- Abstract run of a sequence of fixed-capacity calls on the recency list. -/
def absCallsRun [BEq K] (n : Nat) (f : K → R) : List K → List (K × R) → List (K × R)
  | [], l => l
  | k :: ks, l => absCallsRun n f ks (absStep (decide (l.length ≥ n)) l k (f k))

/-! ### Python values and key construction (`_make_key`, lines 22-64) -/

inductive PyType where
  | tint
  | tfloat
  | tstr
  | tnone
  | tlist
  deriving DecidableEq

/-- Python values relevant to key construction.  Floats are restricted to
integral values (the only floats the specification exercises; such a float
equals the corresponding int under Python `==`); a list value is identified
by an object id and is the canonical unhashable argument. -/
inductive PyVal where
  | vint (n : Int)
  | vfloat (n : Int)
  | vstr (s : String)
  | vnone
  | vlist (oid : Nat)
  deriving DecidableEq

def typeOf : PyVal → PyType
  | PyVal.vint _ => PyType.tint
  | PyVal.vfloat _ => PyType.tfloat
  | PyVal.vstr _ => PyType.tstr
  | PyVal.vnone => PyType.tnone
  | PyVal.vlist _ => PyType.tlist

/-- Python `==` on the modelled values: ints and integral floats compare by
numeric value; values of unrelated types compare unequal. -/
def pyEq : PyVal → PyVal → Bool
  | PyVal.vint a, PyVal.vint b => a == b
  | PyVal.vint a, PyVal.vfloat b => a == b
  | PyVal.vfloat a, PyVal.vint b => a == b
  | PyVal.vfloat a, PyVal.vfloat b => a == b
  | PyVal.vstr a, PyVal.vstr b => a == b
  | PyVal.vnone, PyVal.vnone => true
  | PyVal.vlist a, PyVal.vlist b => a == b
  | _, _ => false

/-- Hashability: list objects are unhashable (`hash` raises `TypeError`). -/
def hashable : PyVal → Bool
  | PyVal.vlist _ => false
  | _ => true

/-- `fasttypes` (line 40); `frozenset` is not modelled. -/
def fasttypes : List PyType := [PyType.tint, PyType.tstr, PyType.tnone]

/-- One element of the flat key tuple: an argument value, a type appended in
typed mode, or the `kwd_mark` separator object. -/
inductive KeyElem where
  | val (v : PyVal)
  | typ (t : PyType)
  | mark
  deriving DecidableEq

def keyElemEq : KeyElem → KeyElem → Bool
  | KeyElem.val a, KeyElem.val b => pyEq a b
  | KeyElem.typ a, KeyElem.typ b => a == b
  | KeyElem.mark, KeyElem.mark => true
  | _, _ => false

def elemHashable : KeyElem → Bool
  | KeyElem.val v => hashable v
  | _ => true

/-- A cache key: either a bare fast-path value (line 63) or a `_HashedSeq`
wrapping the flat tuple (line 64).  A bare value never compares equal to a
`_HashedSeq`, because `int == list` is `False` in Python. -/
inductive PyKey where
  | bare (v : PyVal)
  | hseq (l : List KeyElem)
  deriving DecidableEq

/-- Python `==` between cache keys, the equality the dict lookup uses. -/
def keyEq : PyKey → PyKey → Bool
  | PyKey.bare a, PyKey.bare b => pyEq a b
  | PyKey.hseq a, PyKey.hseq b =>
    a.length == b.length && (a.zip b).all (fun q => keyElemEq q.1 q.2)
  | _, _ => false

instance : BEq PyKey := ⟨keyEq⟩

/-- Exceptions: the `TypeError` of hashing an unhashable argument, or an
arbitrary exception raised by the wrapped function, tagged by a code. -/
inductive PyErr where
  | unhashable
  | userErr (n : Nat)
  deriving DecidableEq

def insertSorted (x : String × PyVal) :
    List (String × PyVal) → List (String × PyVal)
  | [] => [x]
  | y :: ys => if x.1 ≤ y.1 then x :: y :: ys else y :: insertSorted x ys

/-- `sorted(kwds.items())` (line 54). -/
def sortKwds : List (String × PyVal) → List (String × PyVal)
  | [] => []
  | x :: xs => insertSorted x (sortKwds xs)

/-- `_HashedSeq(key)` (lines 22-36): hashes the tuple once at construction,
raising `TypeError` when some element is unhashable. -/
def hashedSeq (key : List KeyElem) : Except PyErr PyKey :=
  if key.all elemHashable then Except.ok (PyKey.hseq key)
  else Except.error PyErr.unhashable

/-- `_make_key` (lines 38-64): flatten positional arguments, marked sorted
keyword items and, in typed mode, the element types; a single positional
argument of a fast type is returned bare. -/
def make_key (args : List PyVal) (kwds : List (String × PyVal)) (typed : Bool) :
    Except PyErr PyKey :=
  let sorted_items := sortKwds kwds
  let kwdElems : List KeyElem :=
    if kwds.isEmpty then []
    else KeyElem.mark ::
      sorted_items.foldr
        (fun it acc => KeyElem.val (PyVal.vstr it.1) :: KeyElem.val it.2 :: acc) []
  let typElems : List KeyElem :=
    if typed then
      args.map (fun v => KeyElem.typ (typeOf v)) ++
        (if kwds.isEmpty then []
         else sorted_items.map (fun it => KeyElem.typ (typeOf it.2)))
    else []
  let key := args.map KeyElem.val ++ kwdElems ++ typElems
  match key with
  | [KeyElem.val v] =>
    if !typed && fasttypes.contains (typeOf v) then Except.ok (PyKey.bare v)
    else hashedSeq key
  | _ => hashedSeq key

/-! ### Argument-level wrappers: key building happens first (lines 116, 183, 198) -/

def fixedCallArgs (maxsize : Nat) (typed : Bool)
    (f : List PyVal → List (String × PyVal) → Except PyErr R)
    (s : LState PyKey R) (args : List PyVal) (kwds : List (String × PyVal)) :
    Except PyErr (Option R) × LState PyKey R :=
  match make_key args kwds typed with
  | Except.error e => (Except.error e, s)
  | Except.ok key => fixedCall maxsize s key (f args kwds)

def memCallArgs (threshold : Nat) (typed : Bool) (probe : Except PyErr Nat)
    (f : List PyVal → List (String × PyVal) → Except PyErr R)
    (s : LState PyKey R) (args : List PyVal) (kwds : List (String × PyVal)) :
    Except PyErr (Option R) × LState PyKey R :=
  match make_key args kwds typed with
  | Except.error e => (Except.error e, s)
  | Except.ok key => memCall threshold probe s key (f args kwds)

def uCallArgs (typed : Bool)
    (f : List PyVal → List (String × PyVal) → Except PyErr R)
    (s : UState PyKey R) (args : List PyVal) (kwds : List (String × PyVal)) :
    Except PyErr R × UState PyKey R :=
  match make_key args kwds typed with
  | Except.error e => (Except.error e, s)
  | Except.ok key => uCall s key (f args kwds)

/-- The `maxsize == 0` wrapper builds no key at all (lines 171-176). -/
def dCallArgs (f : List PyVal → List (String × PyVal) → Except PyErr R)
    (s : DState) (args : List PyVal) (kwds : List (String × PyVal)) :
    Except PyErr R × DState :=
  dCall s (f args kwds)
end LruCache

namespace LruCache

variable {K R E : Type}

/-! ### Pointer-level reading lemmas for the field writers -/

theorem next_setNext_self (f : Nat → Node K R) (i v : Nat) :
    (setNext f i v i).next = v := by
  simp [setNext, Function.update_same]

theorem next_setNext_ne (f : Nat → Node K R) {i x : Nat} (v : Nat) (h : x ≠ i) :
    (setNext f i v x).next = (f x).next := by
  simp [setNext, Function.update_noteq h]

theorem prev_setNext (f : Nat → Node K R) (i v x : Nat) :
    (setNext f i v x).prev = (f x).prev := by
  by_cases h : x = i
  · subst h; simp [setNext, Function.update_same]
  · simp [setNext, Function.update_noteq h]

theorem key_setNext (f : Nat → Node K R) (i v x : Nat) :
    (setNext f i v x).key = (f x).key := by
  by_cases h : x = i
  · subst h; simp [setNext, Function.update_same]
  · simp [setNext, Function.update_noteq h]

theorem result_setNext (f : Nat → Node K R) (i v x : Nat) :
    (setNext f i v x).result = (f x).result := by
  by_cases h : x = i
  · subst h; simp [setNext, Function.update_same]
  · simp [setNext, Function.update_noteq h]

theorem prev_setPrev_self (f : Nat → Node K R) (i v : Nat) :
    (setPrev f i v i).prev = v := by
  simp [setPrev, Function.update_same]

theorem prev_setPrev_ne (f : Nat → Node K R) {i x : Nat} (v : Nat) (h : x ≠ i) :
    (setPrev f i v x).prev = (f x).prev := by
  simp [setPrev, Function.update_noteq h]

theorem next_setPrev (f : Nat → Node K R) (i v x : Nat) :
    (setPrev f i v x).next = (f x).next := by
  by_cases h : x = i
  · subst h; simp [setPrev, Function.update_same]
  · simp [setPrev, Function.update_noteq h]

theorem key_setPrev (f : Nat → Node K R) (i v x : Nat) :
    (setPrev f i v x).key = (f x).key := by
  by_cases h : x = i
  · subst h; simp [setPrev, Function.update_same]
  · simp [setPrev, Function.update_noteq h]

theorem result_setPrev (f : Nat → Node K R) (i v x : Nat) :
    (setPrev f i v x).result = (f x).result := by
  by_cases h : x = i
  · subst h; simp [setPrev, Function.update_same]
  · simp [setPrev, Function.update_noteq h]

theorem key_setKey_self (f : Nat → Node K R) (i : Nat) (k : Option K) :
    (setKey f i k i).key = k := by
  simp [setKey, Function.update_same]

theorem key_setKey_ne (f : Nat → Node K R) {i x : Nat} (k : Option K) (h : x ≠ i) :
    (setKey f i k x).key = (f x).key := by
  simp [setKey, Function.update_noteq h]

theorem next_setKey (f : Nat → Node K R) (i : Nat) (k : Option K) (x : Nat) :
    (setKey f i k x).next = (f x).next := by
  by_cases h : x = i
  · subst h; simp [setKey, Function.update_same]
  · simp [setKey, Function.update_noteq h]

theorem prev_setKey (f : Nat → Node K R) (i : Nat) (k : Option K) (x : Nat) :
    (setKey f i k x).prev = (f x).prev := by
  by_cases h : x = i
  · subst h; simp [setKey, Function.update_same]
  · simp [setKey, Function.update_noteq h]

theorem result_setKey (f : Nat → Node K R) (i : Nat) (k : Option K) (x : Nat) :
    (setKey f i k x).result = (f x).result := by
  by_cases h : x = i
  · subst h; simp [setKey, Function.update_same]
  · simp [setKey, Function.update_noteq h]

theorem result_setResult_self (f : Nat → Node K R) (i : Nat) (r : Option R) :
    (setResult f i r i).result = r := by
  simp [setResult, Function.update_same]

theorem result_setResult_ne (f : Nat → Node K R) {i x : Nat} (r : Option R)
    (h : x ≠ i) : (setResult f i r x).result = (f x).result := by
  simp [setResult, Function.update_noteq h]

theorem next_setResult (f : Nat → Node K R) (i : Nat) (r : Option R) (x : Nat) :
    (setResult f i r x).next = (f x).next := by
  by_cases h : x = i
  · subst h; simp [setResult, Function.update_same]
  · simp [setResult, Function.update_noteq h]

theorem prev_setResult (f : Nat → Node K R) (i : Nat) (r : Option R) (x : Nat) :
    (setResult f i r x).prev = (f x).prev := by
  by_cases h : x = i
  · subst h; simp [setResult, Function.update_same]
  · simp [setResult, Function.update_noteq h]

theorem key_setResult (f : Nat → Node K R) (i : Nat) (r : Option R) (x : Nat) :
    (setResult f i r x).key = (f x).key := by
  by_cases h : x = i
  · subst h; simp [setResult, Function.update_same]
  · simp [setResult, Function.update_noteq h]


/-- A chain transfers along any implication that holds for members. -/
theorem chain'_imp_mem {α : Type} {Rl S : α → α → Prop} :
    ∀ {l : List α}, (∀ x y, x ∈ l → y ∈ l → Rl x y → S x y) →
      List.Chain' Rl l → List.Chain' S l
  | [], _, _ => List.chain'_nil
  | [_], _, _ => List.chain'_singleton _
  | x :: y :: rest, h, hc => by
    rw [List.chain'_cons] at hc ⊢
    refine ⟨h x y (by simp) (by simp) hc.1, ?_⟩
    exact chain'_imp_mem (fun u v hu hv => h u v (by simp [hu]) (by simp [hv])) hc.2


theorem walkIds_root (nodes : Nat → Node K R) (root : Nat) :
    ∀ fuel, walkIds nodes root fuel root = []
  | 0 => rfl
  | _ + 1 => by simp [walkIds]

theorem walkIds_eq (nodes : Nat → Node K R) (root : Nat) :
    ∀ (l : List Nat) (cur fuel : Nat),
      List.Chain' (adjacent nodes) (cur :: l ++ [root]) →
      root ∉ cur :: l → l.length < fuel →
      walkIds nodes root fuel cur = cur :: l
  | [], cur, fuel, hc, hr, hf => by
    obtain ⟨m, rfl⟩ : ∃ m, fuel = m + 1 := ⟨fuel - 1, by omega⟩
    have hcur : cur ≠ root := by simp at hr; exact Ne.symm hr
    have hadj : adjacent nodes cur root := by simpa using hc
    have hnext : (nodes cur).next = root := hadj.1
    simp [walkIds, hcur, hnext, walkIds_root]
  | b :: l2, cur, fuel, hc, hr, hf => by
    obtain ⟨m, rfl⟩ : ∃ m, fuel = m + 1 := ⟨fuel - 1, by omega⟩
    have hcur : cur ≠ root := by simp at hr; tauto
    simp only [List.cons_append, List.chain'_cons] at hc
    have hnext : (nodes cur).next = b := hc.1.1
    have ih := walkIds_eq nodes root l2 b m hc.2 (by simp at hr ⊢; tauto)
      (by simp at hf; omega)
    simp [walkIds, hcur, hnext, ih]

/-! ### Association-list helpers -/

theorem find?_eq_some_of_unique {α : Type} {p : α → Bool} :
    ∀ {l : List α} {a : α}, a ∈ l → p a = true →
      (∀ x ∈ l, p x = true → x = a) → l.find? p = some a
  | [], _, hmem, _, _ => by cases hmem
  | b :: l, a, hmem, hpa, huniq => by
    by_cases hb : p b
    · have : b = a := huniq b (by simp) hb
      subst this
      simp [List.find?, hb]
    · have hab : a ≠ b := fun h => hb (h ▸ hpa)
      have hmem2 : a ∈ l := by
        rcases List.mem_cons.mp hmem with h | h
        · exact absurd h hab
        · exact h
      rw [List.find?_cons_of_neg _ (by simpa using hb)]
      exact find?_eq_some_of_unique hmem2 hpa
        (fun x hx hp => huniq x (by simp [hx]) hp)

end LruCache

namespace LruCache

variable {K R E : Type}


/-- `Models` ignores the counters and the `full` flag. -/
theorem Models.counters [BEq K] {s : LState K R} {ids : List Nat}
    {kvs : List (K × R)} (h : Models s ids kvs) (a b : Nat) (c : Bool) :
    Models { s with hits := a, misses := b, full := c } ids kvs :=
  ⟨h.len, h.nodup, h.bound, h.chain, h.rootKey, h.rootRes, h.nodeData,
    h.cachePerm, h.keysNodup⟩

theorem Models.length_cache [BEq K] {s : LState K R} {ids : List Nat}
    {kvs : List (K × R)} (h : Models s ids kvs) :
    s.cache.length = kvs.length := by
  have hp := h.cachePerm.length_eq
  rw [List.length_map, List.length_zip, h.len, min_self] at hp
  exact hp

/-- Lookup misses exactly when the key is absent from the abstract list. -/
theorem Models.cacheGet_none_iff [BEq K] [LawfulBEq K] {s : LState K R}
    {ids : List Nat} {kvs : List (K × R)} (h : Models s ids kvs) (k : K) :
    cacheGet s.cache k = none ↔ k ∉ kvs.map Prod.fst := by
  constructor
  · intro hnone hk
    obtain ⟨kv, hkv, hfst⟩ := List.mem_map.mp hk
    obtain ⟨j, hj, hget⟩ := List.getElem_of_mem hkv
    have hji : j < ids.length := by rw [h.len]; exact hj
    have hjz : j < (kvs.zip ids).length := by rw [List.length_zip]; omega
    have hz : (kvs.zip ids)[j] = (kvs[j], ids[j]) := List.getElem_zip
    have hmemz : (kvs[j], ids[j]) ∈ kvs.zip ids := hz ▸ List.getElem_mem hjz
    have hmemc : (kv.1, ids[j]) ∈ s.cache := by
      refine h.cachePerm.mem_iff.mpr ?_
      refine List.mem_map.mpr ⟨(kvs[j], ids[j]), hmemz, ?_⟩
      simp [hget]
    have hs : (s.cache.find? (fun p => p.1 == k)).isSome := by
      rw [List.find?_isSome]
      exact ⟨(kv.1, ids[j]), hmemc, by simp [hfst]⟩
    rw [cacheGet, Option.map_eq_none'] at hnone
    rw [hnone] at hs
    simp at hs
  · intro hk
    rw [cacheGet, Option.map_eq_none', List.find?_eq_none]
    intro x hx hpx
    have hxm : x ∈ (kvs.zip ids).map (fun q => (q.1.1, q.2)) :=
      h.cachePerm.mem_iff.mp hx
    obtain ⟨z, hz, hzx⟩ := List.mem_map.mp hxm
    have hz1 : z.1 ∈ kvs := (List.of_mem_zip hz).1
    apply hk
    refine List.mem_map.mpr ⟨z.1, hz1, ?_⟩
    have hx1 : x.1 = k := by simpa using hpx
    rw [← hzx] at hx1
    simpa using hx1

/-- A successful lookup splits the abstract list and the arena order at a
common position, with the found node index in the arena slot. -/
theorem Models.lookup_split [BEq K] [LawfulBEq K] {s : LState K R}
    {ids : List Nat} {kvs : List (K × R)} (h : Models s ids kvs) {k : K}
    {i : Nat} (hsome : cacheGet s.cache k = some i) :
    ∃ P Q A B r, ids = P ++ i :: Q ∧ kvs = A ++ (k, r) :: B ∧
      P.length = A.length := by
  rw [cacheGet] at hsome
  obtain ⟨q, hfind, rfl⟩ := Option.map_eq_some'.mp hsome
  have hqmem : q ∈ s.cache := List.mem_of_find?_eq_some hfind
  have hpq := List.find?_some hfind
  have hq1 : q.1 = k := by simpa using hpq
  have hqmemz : q ∈ (kvs.zip ids).map (fun z => (z.1.1, z.2)) :=
    h.cachePerm.mem_iff.mp hqmem
  obtain ⟨z, hz, hzq⟩ := List.mem_map.mp hqmemz
  obtain ⟨j, hj, hget⟩ := List.getElem_of_mem hz
  have hjk : j < kvs.length := by rw [List.length_zip] at hj; omega
  have hji : j < ids.length := by rw [List.length_zip] at hj; omega
  have hzget : (kvs.zip ids)[j] = (kvs[j], ids[j]) := List.getElem_zip
  rw [hzget] at hget
  have hfstj : kvs[j].1 = k := by
    have h1 : kvs[j] = z.1 := congrArg Prod.fst hget
    have h2 : z.1.1 = q.1 := congrArg Prod.fst hzq
    rw [h1, h2, hq1]
  have hidj : ids[j] = q.2 := by
    have h1 : ids[j] = z.2 := congrArg Prod.snd hget
    have h2 : z.2 = q.2 := congrArg Prod.snd hzq
    rw [h1, h2]
  refine ⟨ids.take j, ids.drop (j + 1), kvs.take j, kvs.drop (j + 1),
    kvs[j].2, ?_, ?_, ?_⟩
  · have hd : ids.drop j = ids[j] :: ids.drop (j + 1) :=
      List.drop_eq_getElem_cons hji
    rw [hidj] at hd
    calc ids = ids.take j ++ ids.drop j := (List.take_append_drop j ids).symm
    _ = ids.take j ++ q.2 :: ids.drop (j + 1) := by rw [hd]
  · have hd : kvs.drop j = kvs[j] :: kvs.drop (j + 1) :=
      List.drop_eq_getElem_cons hjk
    have hkvj : kvs[j] = (k, kvs[j].2) := by
      cases hkv : kvs[j] with
      | mk a b => rw [hkv] at hfstj; simp at hfstj; rw [hfstj]
    rw [hkvj] at hd
    calc kvs = kvs.take j ++ kvs.drop j := (List.take_append_drop j kvs).symm
    _ = kvs.take j ++ (k, kvs[j].2) :: kvs.drop (j + 1) := by rw [hd]
  · simp [List.length_take]
    omega

end LruCache

namespace LruCache

variable {K R E : Type}

/-! ### Decomposition lemmas for cyclic chains -/

theorem cyclic_nil_iff (nodes : Nat → Node K R) (root : Nat) :
    cyclic nodes root [] ↔ adjacent nodes root root := by
  simp [cyclic, List.chain'_pair]

theorem cyclic_concat_iff (nodes : Nat → Node K R) (root : Nat)
    (ids2 : List Nat) (z : Nat) :
    cyclic nodes root (ids2 ++ [z]) ↔
      List.Chain' (adjacent nodes) (root :: ids2 ++ [z]) ∧
        adjacent nodes z root := by
  have hl : root :: (ids2 ++ [z]) ++ [root] = (root :: ids2 ++ [z]) ++ [root] := by
    simp
  rw [cyclic, hl, List.chain'_append]
  constructor
  · rintro ⟨h1, -, h3⟩
    exact ⟨h1, h3 z (by rw [List.getLast?_concat]; rfl) root (by simp)⟩
  · rintro ⟨h1, h2⟩
    refine ⟨h1, List.chain'_singleton root, ?_⟩
    intro x hx y hy
    rw [List.getLast?_concat] at hx
    simp at hx hy
    exact hx ▸ hy ▸ h2

theorem cyclic_split_mid_iff (nodes : Nat → Node K R) (root : Nat)
    (P Q : List Nat) (i : Nat) :
    cyclic nodes root (P ++ i :: Q) ↔
      List.Chain' (adjacent nodes) (root :: P) ∧
        adjacent nodes ((root :: P).getLast (List.cons_ne_nil root P)) i ∧
        List.Chain' (adjacent nodes) (i :: Q ++ [root]) := by
  have hl : root :: (P ++ i :: Q) ++ [root] = (root :: P) ++ (i :: Q ++ [root]) := by
    simp
  rw [cyclic, hl, List.chain'_append]
  constructor
  · rintro ⟨h1, h2, h3⟩
    refine ⟨h1, ?_, h2⟩
    exact h3 _ (by rw [List.getLast?_eq_getLast _ (List.cons_ne_nil root P)]; rfl)
      i (by simp)
  · rintro ⟨h1, h2, h3⟩
    refine ⟨h1, h3, ?_⟩
    intro x hx y hy
    rw [List.getLast?_eq_getLast _ (List.cons_ne_nil root P)] at hx
    simp at hx hy
    exact hx ▸ hy ▸ h2

/-! ### Preservation of the invariant by `cache_clear` -/

theorem Models.clear [BEq K] {s : LState K R} {ids : List Nat}
    {kvs : List (K × R)} (h : Models s ids kvs) :
    Models (cacheClear s) [] [] := by
  refine ⟨rfl, by simp, ?_, ?_, ?_, ?_, by simp, by simp [cacheClear], by simp⟩
  · intro i hi
    simp at hi
    subst hi
    show s.root < s.nalloc
    exact h.bound s.root (by simp)
  · rw [cyclic_nil_iff]
    constructor
    · show (Function.update s.nodes s.root ⟨s.root, s.root, none, none⟩ s.root).next = s.root
      rw [Function.update_same]
    · show (Function.update s.nodes s.root ⟨s.root, s.root, none, none⟩ s.root).prev = s.root
      rw [Function.update_same]
  · show (Function.update s.nodes s.root ⟨s.root, s.root, none, none⟩ s.root).key = none
    rw [Function.update_same]
  · show (Function.update s.nodes s.root ⟨s.root, s.root, none, none⟩ s.root).result = none
    rw [Function.update_same]

end LruCache

namespace LruCache

variable {K R E : Type}

/-- Transfer a chain of adjacencies to a new arena that agrees on the forward
pointers of all but the last node and the backward pointers of all but the
first node. -/
theorem chain'_of_reads {f g : Nat → Node K R} :
    ∀ {l : List Nat},
      (∀ x ∈ l.dropLast, (g x).next = (f x).next) →
      (∀ y ∈ l.tail, (g y).prev = (f y).prev) →
      List.Chain' (adjacent f) l → List.Chain' (adjacent g) l
  | [], _, _, _ => List.chain'_nil
  | [_], _, _, _ => List.chain'_singleton _
  | x :: y :: rest, hnext, hprev, hc => by
    rw [List.chain'_cons] at hc ⊢
    refine ⟨⟨?_, ?_⟩, ?_⟩
    · rw [hnext x (by simp), hc.1.1]
    · rw [hprev y (by simp), hc.1.2]
    · refine chain'_of_reads (fun u hu => hnext u ?_) (fun v hv => hprev v ?_) hc.2
      · simpa using Or.inr hu
      · simpa using Or.inr hv

/-! ### Preservation of the invariant by the fresh-insert branch -/

theorem models_freshInsert [BEq K] [LawfulBEq K] {s : LState K R}
    {ids : List Nat} {kvs : List (K × R)} (h : Models s ids kvs) (k : K) (r : R)
    (hk : k ∉ kvs.map Prod.fst) :
    Models (freshInsert s k r) (ids ++ [s.nalloc]) (kvs ++ [(k, r)]) := by
  have hrtw : s.root ≠ s.nalloc := Nat.ne_of_lt (h.bound s.root (by simp))
  have hidw : ∀ i ∈ ids, i ≠ s.nalloc :=
    fun i hi => Nat.ne_of_lt (h.bound i (by simp [hi]))
  have hnodes : (freshInsert s k r).nodes =
      setPrev (setNext (Function.update s.nodes s.nalloc
          ⟨(s.nodes s.root).prev, s.root, some k, some r⟩)
        (s.nodes s.root).prev s.nalloc) s.root s.nalloc := rfl
  have hrt : (freshInsert s k r).root = s.root := rfl
  have hcache : (freshInsert s k r).cache = s.cache ++ [(k, s.nalloc)] := rfl
  have hna : (freshInsert s k r).nalloc = s.nalloc + 1 := rfl
  -- pointwise reads of the new arena
  have hnext : ∀ x, x ≠ (s.nodes s.root).prev → x ≠ s.nalloc →
      ((freshInsert s k r).nodes x).next = (s.nodes x).next := by
    intro x hxz hxw
    rw [hnodes, next_setPrev, next_setNext_ne _ _ hxz, Function.update_noteq hxw]
  have hnextz : (s.nodes s.root).prev ≠ s.nalloc →
      ((freshInsert s k r).nodes (s.nodes s.root).prev).next = s.nalloc := by
    intro _
    rw [hnodes, next_setPrev, next_setNext_self]
  have hnextw : s.nalloc ≠ (s.nodes s.root).prev →
      ((freshInsert s k r).nodes s.nalloc).next = s.root := by
    intro hwz
    rw [hnodes, next_setPrev, next_setNext_ne _ _ hwz, Function.update_same]
  have hprev : ∀ x, x ≠ s.root → x ≠ s.nalloc →
      ((freshInsert s k r).nodes x).prev = (s.nodes x).prev := by
    intro x hxr hxw
    rw [hnodes, prev_setPrev_ne _ _ hxr, prev_setNext, Function.update_noteq hxw]
  have hprevrt : ((freshInsert s k r).nodes s.root).prev = s.nalloc := by
    rw [hnodes, prev_setPrev_self]
  have hprevw : s.nalloc ≠ s.root →
      ((freshInsert s k r).nodes s.nalloc).prev = (s.nodes s.root).prev := by
    intro hwr
    rw [hnodes, prev_setPrev_ne _ _ hwr, prev_setNext, Function.update_same]
  have hkey : ∀ x, x ≠ s.nalloc →
      ((freshInsert s k r).nodes x).key = (s.nodes x).key := by
    intro x hxw
    rw [hnodes, key_setPrev, key_setNext, Function.update_noteq hxw]
  have hkeyw : ((freshInsert s k r).nodes s.nalloc).key = some k := by
    rw [hnodes, key_setPrev, key_setNext, Function.update_same]
  have hres : ∀ x, x ≠ s.nalloc →
      ((freshInsert s k r).nodes x).result = (s.nodes x).result := by
    intro x hxw
    rw [hnodes, result_setPrev, result_setNext, Function.update_noteq hxw]
  have hresw : ((freshInsert s k r).nodes s.nalloc).result = some r := by
    rw [hnodes, result_setPrev, result_setNext, Function.update_same]
  refine ⟨?_, ?_, ?_, ?_, ?_, ?_, ?_, ?_, ?_⟩
  · simp [h.len]
  · rw [hrt]
    have : s.root :: (ids ++ [s.nalloc]) = (s.root :: ids) ++ [s.nalloc] := by simp
    rw [this, List.nodup_append]
    refine ⟨h.nodup, by simp, ?_⟩
    intro a ha hb
    simp at hb
    subst hb
    rcases List.mem_cons.mp ha with hh | hh
    · exact hrtw hh.symm
    · exact hidw _ hh rfl
  · intro i hi
    rw [hna]
    rw [hrt] at hi
    rcases List.mem_cons.mp hi with hh | hh
    · have := h.bound s.root (by simp)
      omega
    · rcases List.mem_append.mp hh with hh2 | hh2
      · have := h.bound i (by simp [hh2])
        omega
      · simp at hh2
        omega
  · -- the cyclic chain
    rw [hrt]
    rcases List.eq_nil_or_concat' ids with rfl | ⟨ids2, z0, rfl⟩
    · -- previously empty cache
      have hadj : adjacent s.nodes s.root s.root := (cyclic_nil_iff _ _).mp h.chain
      have hz : (s.nodes s.root).prev = s.root := hadj.2
      have hpair : List.Chain' (adjacent (freshInsert s k r).nodes)
          (s.root :: [] ++ [s.nalloc]) := by
        refine List.chain'_pair.mpr ⟨?_, ?_⟩
        · have hh := hnextz (by rw [hz]; exact hrtw)
          rw [hz] at hh
          exact hh
        · rw [hprevw (Ne.symm hrtw), hz]
      refine (cyclic_concat_iff _ s.root [] s.nalloc).mpr ⟨hpair, ?_, ?_⟩
      · rw [hnextw (by rw [hz]; exact Ne.symm hrtw)]
      · exact hprevrt
    · -- previously nonempty cache
      have hdec := (cyclic_concat_iff s.nodes s.root ids2 z0).mp h.chain
      have hz : (s.nodes s.root).prev = z0 := hdec.2.2
      have hz0w : z0 ≠ s.nalloc := hidw z0 (by simp)
      have hz0ids : z0 ∈ ids2 ++ [z0] := by simp
      rw [cyclic_concat_iff]
      constructor
      · have hlist : s.root :: (ids2 ++ [z0]) ++ [s.nalloc] =
            (s.root :: ids2 ++ [z0]) ++ [s.nalloc] := by simp
        rw [hlist, List.chain'_append]
        refine ⟨?_, List.chain'_singleton _, ?_⟩
        · -- the old chain is untouched
          refine chain'_of_reads ?_ ?_ hdec.1
          · intro x hx
            rw [show (s.root :: ids2 ++ [z0]).dropLast = s.root :: ids2 by
              rw [show s.root :: ids2 ++ [z0] = (s.root :: ids2) ++ [z0] by simp,
                List.dropLast_concat]] at hx
            have hnd := h.nodup
            have hzout : z0 ∉ s.root :: ids2 := by
              have : (s.root :: (ids2 ++ [z0])).Nodup := hnd
              rw [show s.root :: (ids2 ++ [z0]) = (s.root :: ids2) ++ [z0] by simp,
                List.nodup_append] at this
              intro hmem
              exact this.2.2 hmem (by simp)
            have hxz : x ≠ z0 := fun hxe => hzout (hxe ▸ hx)
            have hxw : x ≠ s.nalloc := by
              rcases List.mem_cons.mp hx with hh | hh
              · exact hh ▸ hrtw
              · exact hidw x (by simp [hh])
            rw [hnext x (by rw [hz]; exact hxz) hxw]
          · intro y hy
            simp only [List.tail_cons] at hy
            have hyrt : y ≠ s.root := by
              intro hye
              have hnd := h.nodup
              rw [List.nodup_cons] at hnd
              exact hnd.1 (hye ▸ hy)
            exact hprev y hyrt (hidw y hy)
        · intro x hx y hy
          rw [show s.root :: ids2 ++ [z0] = (s.root :: ids2) ++ [z0] by simp,
            List.getLast?_concat] at hx
          simp at hx hy
          subst hx
          subst hy
          constructor
          · have := hnextz (by rw [hz]; exact hz0w)
            rw [hz] at this
            exact this
          · rw [hprevw (Ne.symm hrtw), hz]
      · constructor
        · rw [hnextw (by rw [hz]; exact Ne.symm hz0w)]
        · exact hprevrt
  · rw [hrt, hkey s.root hrtw]
    exact h.rootKey
  · rw [hrt, hres s.root hrtw]
    exact h.rootRes
  · intro q hq
    rw [List.zip_append h.len.symm] at hq
    rcases List.mem_append.mp hq with hh | hh
    · have hq2 : q.2 ∈ ids := (List.of_mem_zip hh).2
      rw [hkey q.2 (hidw q.2 hq2), hres q.2 (hidw q.2 hq2)]
      exact h.nodeData q hh
    · simp at hh
      rw [hh]
      exact ⟨hkeyw, hresw⟩
  · rw [hcache, List.zip_append h.len.symm, List.map_append]
    exact h.cachePerm.append (List.Perm.refl _)
  · rw [List.map_append]
    rw [List.nodup_append]
    refine ⟨h.keysNodup, by simp, ?_⟩
    intro a ha hb
    simp at hb
    subst hb
    exact hk ha

end LruCache

namespace LruCache

variable {K R E : Type}

/-! ### Preservation of the invariant by the eviction branch -/

theorem models_evictInsert [BEq K] [LawfulBEq K] {s : LState K R} {i0 : Nat}
    {ids2 : List Nat} {k0 : K} {r0 : R} {kvs2 : List (K × R)}
    (h : Models s (i0 :: ids2) ((k0, r0) :: kvs2)) (k : K) (r : R)
    (hk : k ∉ ((k0, r0) :: kvs2).map Prod.fst) :
    Models (evictInsert s k r) (ids2 ++ [s.root]) (kvs2 ++ [(k, r)]) := by
  have hlen2 : ids2.length = kvs2.length := by
    have := h.len
    simpa using this
  have hrtout : s.root ∉ i0 :: ids2 := (List.nodup_cons.mp h.nodup).1
  have hi0rt : i0 ≠ s.root := fun he => hrtout (by simp [he])
  have hi0out : i0 ∉ ids2 :=
    (List.nodup_cons.mp (List.nodup_cons.mp h.nodup).2).1
  obtain ⟨hch1, hadj, hch3⟩ :=
    (cyclic_split_mid_iff s.nodes s.root [] ids2 i0).mp (by simpa using h.chain)
  have hadj2 : adjacent s.nodes s.root i0 := by simpa using hadj
  have hfirst := h.nodeData ((k0, r0), i0) (by
    show ((k0, r0), i0) ∈ ((k0, r0) :: kvs2).zip (i0 :: ids2)
    simp [List.zip_cons_cons])
  -- abbreviate the first two writes
  set n2 := setResult (setKey s.nodes s.root (some k)) s.root (some r) with hn2
  have hn2next : ∀ x, (n2 x).next = (s.nodes x).next := by
    intro x
    rw [hn2, next_setResult, next_setKey]
  have hn2prev : ∀ x, (n2 x).prev = (s.nodes x).prev := by
    intro x
    rw [hn2, prev_setResult, prev_setKey]
  have hn2key : ∀ x, x ≠ s.root → (n2 x).key = (s.nodes x).key := by
    intro x hx
    rw [hn2, key_setResult, key_setKey_ne _ _ hx]
  have hn2keyrt : (n2 s.root).key = some k := by
    rw [hn2, key_setResult, key_setKey_self]
  have hn2res : ∀ x, x ≠ s.root → (n2 x).result = (s.nodes x).result := by
    intro x hx
    rw [hn2, result_setResult_ne _ _ hx, result_setKey]
  have hn2resrt : (n2 s.root).result = some r := by
    rw [hn2, result_setResult_self]
  have hnr : (n2 s.root).next = i0 := by rw [hn2next]; exact hadj2.1
  have hok : (n2 i0).key = some k0 := by rw [hn2key i0 hi0rt]; exact hfirst.1
  have hsplit : evictInsert s k r =
      { s with nodes := setResult (setKey n2 i0 none) i0 none
               root := i0
               cache := cacheDel s.cache k0 ++ [(k, s.root)] } := by
    simp only [evictInsert, ← hn2]
    rw [hnr, hok]
  rw [hsplit]
  -- pointwise reads of the final arena
  set n4 := setResult (setKey n2 i0 none) i0 none with hn4
  have hn4next : ∀ x, (n4 x).next = (s.nodes x).next := by
    intro x
    rw [hn4, next_setResult, next_setKey, hn2next]
  have hn4prev : ∀ x, (n4 x).prev = (s.nodes x).prev := by
    intro x
    rw [hn4, prev_setResult, prev_setKey, hn2prev]
  have hn4key : ∀ x, x ≠ i0 → x ≠ s.root → (n4 x).key = (s.nodes x).key := by
    intro x hx1 hx2
    rw [hn4, key_setResult, key_setKey_ne _ _ hx1, hn2key x hx2]
  have hn4keyi : (n4 i0).key = none := by
    rw [hn4, key_setResult, key_setKey_self]
  have hn4keyrt : (n4 s.root).key = some k := by
    rw [hn4, key_setResult, key_setKey_ne _ _ (Ne.symm hi0rt), hn2keyrt]
  have hn4res : ∀ x, x ≠ i0 → x ≠ s.root → (n4 x).result = (s.nodes x).result := by
    intro x hx1 hx2
    rw [hn4, result_setResult_ne _ _ hx1, result_setKey, hn2res x hx2]
  have hn4resi : (n4 i0).result = none := by
    rw [hn4, result_setResult_self]
  have hn4resrt : (n4 s.root).result = some r := by
    rw [hn4, result_setResult_ne _ _ (Ne.symm hi0rt), result_setKey, hn2resrt]
  refine ⟨?_, ?_, ?_, ?_, ?_, ?_, ?_, ?_, ?_⟩
  · simp [hlen2]
  · show (i0 :: (ids2 ++ [s.root])).Nodup
    have hperm2 : List.Perm ((i0 :: ids2) ++ [s.root]) (s.root :: i0 :: ids2) :=
      List.perm_append_singleton s.root (i0 :: ids2)
    exact hperm2.symm.nodup h.nodup
  · intro i hi
    show i < s.nalloc
    rcases List.mem_cons.mp hi with hh | hh
    · exact h.bound i (by simp [hh])
    · rcases List.mem_append.mp hh with hh2 | hh2
      · exact h.bound i (by simp [hh2])
      · simp at hh2
        exact h.bound i (by simp [hh2])
  · show cyclic n4 i0 (ids2 ++ [s.root])
    refine (cyclic_concat_iff n4 i0 ids2 s.root).mpr ⟨?_, ?_, ?_⟩
    · refine chain'_of_reads (fun x _ => hn4next x) (fun y _ => hn4prev y) hch3
    · rw [hn4next]
      exact hadj2.1
    · rw [hn4prev]
      exact hadj2.2
  · exact hn4keyi
  · exact hn4resi
  · intro q hq
    show (n4 q.2).key = some q.1.1 ∧ (n4 q.2).result = some q.1.2
    rw [List.zip_append hlen2.symm] at hq
    rcases List.mem_append.mp hq with hh | hh
    · have hq2 : q.2 ∈ ids2 := (List.of_mem_zip hh).2
      have hq2i : q.2 ≠ i0 := fun he => hi0out (he ▸ hq2)
      have hq2rt : q.2 ≠ s.root := fun he => hrtout (by simp [he ▸ hq2])
      rw [hn4key q.2 hq2i hq2rt, hn4res q.2 hq2i hq2rt]
      refine h.nodeData q ?_
      show q ∈ ((k0, r0) :: kvs2).zip (i0 :: ids2)
      rw [List.zip_cons_cons]
      exact List.mem_cons.mpr (Or.inr hh)
    · simp at hh
      rw [hh]
      exact ⟨hn4keyrt, hn4resrt⟩
  · show (cacheDel s.cache k0 ++ [(k, s.root)]).Perm _
    rw [List.zip_append hlen2.symm, List.map_append]
    refine List.Perm.append ?_ (by simp)
    have hperm := h.cachePerm.filter (fun p => !(p.1 == k0))
    have hzc : (((k0, r0) :: kvs2).zip (i0 :: ids2)).map
        (fun q => (q.1.1, q.2)) = (k0, i0) :: (kvs2.zip ids2).map
        (fun q => (q.1.1, q.2)) := by
      rw [List.zip_cons_cons, List.map_cons]
    rw [hzc] at hperm
    have hkeys : ∀ q ∈ (kvs2.zip ids2).map (fun q => (q.1.1, q.2)),
        (fun p => !(p.1 == k0)) q = true := by
      intro q hq
      obtain ⟨z, hz, hzq⟩ := List.mem_map.mp hq
      have hz1 : z.1 ∈ kvs2 := (List.of_mem_zip hz).1
      have hknn : (kvs2.map Prod.fst).Nodup ∧ k0 ∉ kvs2.map Prod.fst := by
        have := h.keysNodup
        rw [List.map_cons, List.nodup_cons] at this
        exact ⟨this.2, this.1⟩
      have hne : z.1.1 ≠ k0 := by
        intro he
        exact hknn.2 (List.mem_map.mpr ⟨z.1, hz1, he⟩)
      have hq1 : q.1 = z.1.1 := by rw [← hzq]
      simp [hq1, hne]
    have hfe : ((k0, i0) :: (kvs2.zip ids2).map (fun q => (q.1.1, q.2))).filter
        (fun p => !(p.1 == k0)) = (kvs2.zip ids2).map (fun q => (q.1.1, q.2)) := by
      rw [List.filter_cons]
      have hhead : (!((k0, i0).1 == k0)) = false := by simp
      rw [hhead]
      simp only [Bool.false_eq_true, if_false]
      exact List.filter_eq_self.mpr hkeys
    rw [hfe] at hperm
    exact hperm
  · rw [List.map_append]
    rw [List.nodup_append]
    have hkt := h.keysNodup
    rw [List.map_cons, List.nodup_cons] at hkt
    refine ⟨hkt.2, by simp, ?_⟩
    intro a ha hb
    simp at hb
    subst hb
    refine hk ?_
    rw [List.map_cons]
    exact List.mem_cons.mpr (Or.inr ha)

end LruCache

namespace LruCache

variable {K R E : Type}

theorem getLast_not_mem_dropLast {l : List Nat} (hnd : l.Nodup) (hne : l ≠ []) :
    l.getLast hne ∉ l.dropLast := by
  have hd := List.dropLast_concat_getLast hne
  rw [← hd, List.nodup_append] at hnd
  intro hmem
  exact hnd.2.2 hmem (by simp)

/-! ### Preservation of the invariant by the hit path -/

theorem models_promote [BEq K] [LawfulBEq K] {s : LState K R} {P Q : List Nat}
    {A B : List (K × R)} {i : Nat} {k : K} {r : R}
    (h : Models s (P ++ i :: Q) (A ++ (k, r) :: B)) (hlen : P.length = A.length) :
    (promote s i).1 = some r ∧
      Models (promote s i).2 (P ++ Q ++ [i]) (A ++ B ++ [(k, r)]) := by
  -- abbreviations for the successive arenas of the hit path
  set lp := (s.nodes i).prev with hlp
  set ln := (s.nodes i).next with hln
  set m1 := setNext s.nodes lp ln with hm1
  set m2 := setPrev m1 ln lp with hm2
  set lst := (m2 s.root).prev with hlst
  set m3 := setNext m2 lst i with hm3
  set m4 := setPrev m3 s.root i with hm4
  set m5 := setPrev m4 i lst with hm5
  set m6 := setNext m5 i s.root with hm6
  have hpr : promote s i = ((s.nodes i).result, { s with nodes := m6 }) := rfl
  -- evaluated pointer reads of the final arena: a later write wins
  have hNE : ∀ x, (m6 x).next =
      if x = i then s.root else if x = lst then i else
        if x = lp then ln else (s.nodes x).next := by
    intro x
    by_cases hxi : x = i
    · subst hxi
      rw [hm6, next_setNext_self]
      simp
    · rw [hm6, next_setNext_ne _ _ hxi, hm5, next_setPrev, hm4, next_setPrev]
      by_cases hxl : x = lst
      · subst hxl
        rw [hm3, next_setNext_self]
        simp [hxi]
      · rw [hm3, next_setNext_ne _ _ hxl, hm2, next_setPrev]
        by_cases hxp : x = lp
        · subst hxp
          rw [hm1, next_setNext_self]
          simp [hxi, hxl]
        · rw [hm1, next_setNext_ne _ _ hxp]
          simp [hxi, hxl, hxp]
  have hPE : ∀ x, (m6 x).prev =
      if x = i then lst else if x = s.root then i else
        if x = ln then lp else (s.nodes x).prev := by
    intro x
    rw [hm6, prev_setNext]
    by_cases hxi : x = i
    · subst hxi
      rw [hm5, prev_setPrev_self]
      simp
    · rw [hm5, prev_setPrev_ne _ _ hxi, hm4]
      by_cases hxr : x = s.root
      · subst hxr
        rw [prev_setPrev_self]
        simp [hxi]
      · rw [prev_setPrev_ne _ _ hxr, hm3, prev_setNext, hm2]
        by_cases hxn : x = ln
        · subst hxn
          rw [prev_setPrev_self]
          simp [hxi, hxr]
        · rw [prev_setPrev_ne _ _ hxn, hm1, prev_setNext]
          simp [hxi, hxr, hxn]
  have hKE : ∀ x, (m6 x).key = (s.nodes x).key := by
    intro x
    rw [hm6, key_setNext, hm5, key_setPrev, hm4, key_setPrev, hm3, key_setNext,
      hm2, key_setPrev, hm1, key_setNext]
  have hRE : ∀ x, (m6 x).result = (s.nodes x).result := by
    intro x
    rw [hm6, result_setNext, hm5, result_setPrev, hm4, result_setPrev, hm3,
      result_setNext, hm2, result_setPrev, hm1, result_setNext]
  -- distinctness inventory
  have hnodup := h.nodup
  have hrtPiQ : s.root ∉ P ++ i :: Q := (List.nodup_cons.mp hnodup).1
  have hPiQ := (List.nodup_cons.mp hnodup).2
  rw [List.nodup_append] at hPiQ
  have hndP : P.Nodup := hPiQ.1
  have hiQnd : (i :: Q).Nodup := hPiQ.2.1
  have hiQ : i ∉ Q := (List.nodup_cons.mp hiQnd).1
  have hndQ : Q.Nodup := (List.nodup_cons.mp hiQnd).2
  have hdisj : P.Disjoint (i :: Q) := hPiQ.2.2
  have hrtP : s.root ∉ P := fun hm => hrtPiQ (List.mem_append.mpr (Or.inl hm))
  have hrtiQ : s.root ∉ i :: Q := fun hm => hrtPiQ (List.mem_append.mpr (Or.inr hm))
  have hrtQ : s.root ∉ Q := fun hm => hrtiQ (List.mem_cons.mpr (Or.inr hm))
  have hirt : i ≠ s.root := by
    intro he
    exact hrtiQ (by rw [← he]; exact List.mem_cons_self i Q)
  have hiP : i ∉ P := fun hm => hdisj hm (List.mem_cons_self i Q)
  have hinrtP : i ∉ s.root :: P := by
    intro hm
    rcases List.mem_cons.mp hm with hh | hh
    · exact hirt hh
    · exact hiP hh
  have hndrtP : (s.root :: P).Nodup := List.nodup_cons.mpr ⟨hrtP, hndP⟩
  have hPQout : ∀ x ∈ s.root :: P, x ∉ Q := by
    intro x hx hxQ
    rcases List.mem_cons.mp hx with hh | hh
    · exact hrtQ (hh ▸ hxQ)
    · exact hdisj hh (List.mem_cons.mpr (Or.inr hxQ))
  -- chain decomposition around the promoted node
  obtain ⟨hchP, hadjai, hchQ⟩ :=
    (cyclic_split_mid_iff s.nodes s.root P Q i).mp h.chain
  obtain ⟨a, hadef⟩ : ∃ a, (s.root :: P).getLast (List.cons_ne_nil s.root P) = a :=
    ⟨_, rfl⟩
  rw [hadef] at hadjai
  have hamem : a ∈ s.root :: P := hadef ▸ List.getLast_mem _
  have hlpa : lp = a := by rw [hlp, hadjai.2]
  have hai : a ≠ i := by
    intro he
    exact hinrtP (by rw [← he]; exact hamem)
  -- the stored data of the promoted node
  have hdata : (s.nodes i).key = some k ∧ (s.nodes i).result = some r := by
    refine h.nodeData ((k, r), i) ?_
    rw [List.zip_append hlen.symm]
    refine List.mem_append.mpr (Or.inr ?_)
    rw [List.zip_cons_cons]
    exact List.mem_cons_self _ _
  have hQB : Q.length = B.length := by
    have hl := h.len
    simp only [List.length_append, List.length_cons] at hl
    omega
  refine ⟨by rw [hpr]; exact hdata.2, ?_⟩
  rw [hpr]
  show Models { s with nodes := m6 } (P ++ Q ++ [i]) (A ++ B ++ [(k, r)])
  rcases Q with _ | ⟨q, Q2⟩
  · -- first case: the promoted node is already the most recent one, and the
    -- arena is unchanged pointwise
    obtain rfl : B = [] := List.eq_nil_of_length_eq_zero hQB.symm
    have hadjirt : adjacent s.nodes i s.root := by
      have hq := hchQ
      simp only [List.nil_append] at hq
      exact List.chain'_pair.mp hq
    have hlnrt : ln = s.root := by rw [hln, hadjirt.1]
    have hlstlp : lst = lp := by
      rw [hlst, hm2, hlnrt, prev_setPrev_self]
    have hsameN : ∀ x, (m6 x).next = (s.nodes x).next := by
      intro x
      rw [hNE x]
      by_cases hxi : x = i
      · subst hxi
        simp [hadjirt.1]
      · by_cases hxl : x = lst
        · subst hxl
          rw [if_neg hxi, if_pos rfl, hlstlp, hlpa]
          exact hadjai.1.symm
        · have hxp : x ≠ lp := fun he => hxl (he.trans hlstlp.symm)
          rw [if_neg hxi, if_neg hxl, if_neg hxp]
    have hsameP : ∀ x, (m6 x).prev = (s.nodes x).prev := by
      intro x
      rw [hPE x]
      by_cases hxi : x = i
      · subst hxi
        rw [if_pos rfl, hlstlp, hlp]
      · by_cases hxr : x = s.root
        · subst hxr
          rw [if_neg hxi, if_pos rfl]
          exact hadjirt.2.symm
        · have hxn : x ≠ ln := fun he => hxr (he.trans hlnrt)
          rw [if_neg hxi, if_neg hxr, if_neg hxn]
    simp only [List.append_nil]
    refine ⟨h.len, h.nodup, h.bound, ?_, ?_, ?_, ?_, h.cachePerm, h.keysNodup⟩
    · exact chain'_of_reads (fun x _ => hsameN x) (fun y _ => hsameP y) h.chain
    · exact (hKE s.root).trans h.rootKey
    · exact (hRE s.root).trans h.rootRes
    · intro p hp
      exact ⟨(hKE p.2).trans (h.nodeData p hp).1, (hRE p.2).trans (h.nodeData p hp).2⟩
  · -- second case: there are entries less recent than the promoted node
    obtain ⟨hadjiq, hchQ2⟩ := List.chain'_cons.mp hchQ
    simp only [List.append_eq] at hchQ2
    rw [← List.cons_append, List.chain'_append] at hchQ2
    obtain ⟨hchq, -, hjz⟩ := hchQ2
    obtain ⟨z, hzdef⟩ : ∃ z, (q :: Q2).getLast (List.cons_ne_nil q Q2) = z :=
      ⟨_, rfl⟩
    have hzadj : adjacent s.nodes z s.root := by
      refine hjz z ?_ s.root (by simp)
      rw [List.getLast?_eq_getLast _ (List.cons_ne_nil q Q2), hzdef]
      rfl
    have hzQ : z ∈ q :: Q2 := hzdef ▸ List.getLast_mem _
    have hlnq : ln = q := by rw [hln, hadjiq.1]
    have hrtq : s.root ≠ q := by
      intro he
      exact hrtQ (by rw [he]; exact List.mem_cons_self q Q2)
    have hlstz : lst = z := by
      rw [hlst, hm2, hlnq, prev_setPrev_ne _ _ hrtq, hm1, prev_setNext]
      exact hzadj.2
    have hiq : i ≠ q := fun he => hiQ (by rw [he]; exact List.mem_cons_self q Q2)
    have hiz : i ≠ z := fun he => hiQ (by rw [he]; exact hzQ)
    have haz : a ≠ z := fun he => hPQout a hamem (by rw [he]; exact hzQ)
    have haq : a ≠ q := fun he => hPQout a hamem (by rw [he]; exact List.mem_cons_self q Q2)
    have halst : a ≠ lst := by rw [hlstz]; exact haz
    have hzrt : z ≠ s.root := fun he => hrtQ (by rw [← he]; exact hzQ)
    -- list permutations between the new and old orders
    have hpermids : List.Perm (P ++ (q :: Q2) ++ [i]) (P ++ i :: (q :: Q2)) := by
      have h1 : List.Perm ((q :: Q2) ++ [i]) (i :: (q :: Q2)) :=
        List.perm_append_singleton i (q :: Q2)
      have h2 := List.Perm.append_left P h1
      rw [← List.append_assoc] at h2
      exact h2
    have hpermkvs : List.Perm (A ++ B ++ [(k, r)]) (A ++ (k, r) :: B) := by
      have h1 := List.perm_append_singleton (k, r) B
      have h2 := List.Perm.append_left A h1
      rw [← List.append_assoc] at h2
      exact h2
    have hAB : (A ++ B).length = (P ++ q :: Q2).length := by
      have hl := h.len
      simp only [List.length_append, List.length_cons, List.length_nil] at hl ⊢
      omega
    refine ⟨?_, ?_, ?_, ?_, ?_, ?_, ?_, ?_, ?_⟩
    · have hl := h.len
      simp only [List.length_append, List.length_cons, List.length_nil] at hl ⊢
      omega
    · show (s.root :: (P ++ (q :: Q2) ++ [i])).Nodup
      exact ((hpermids.cons s.root).symm).nodup hnodup
    · intro j hj
      show j < s.nalloc
      refine h.bound j ?_
      exact ((hpermids.cons s.root).mem_iff).mp hj
    · show cyclic m6 s.root (P ++ (q :: Q2) ++ [i])
      refine (cyclic_concat_iff m6 s.root (P ++ q :: Q2) i).mpr ⟨?_, ?_, ?_⟩
      · -- the full forward chain root :: P, q :: Q2, i
        have hsh : s.root :: (P ++ q :: Q2) ++ [i] =
            ((s.root :: P) ++ (q :: Q2)) ++ [i] := by simp
        rw [hsh, List.chain'_append]
        refine ⟨?_, List.chain'_singleton _, ?_⟩
        · rw [List.chain'_append]
          refine ⟨?_, ?_, ?_⟩
          · -- segment root :: P
            refine chain'_of_reads ?_ ?_ hchP
            · intro x hx
              have hxmem : x ∈ s.root :: P := List.dropLast_subset _ hx
              have hxa : x ≠ a := by
                intro he
                refine getLast_not_mem_dropLast hndrtP (List.cons_ne_nil s.root P) ?_
                rw [hadef, ← he]
                exact hx
              have hxi2 : x ≠ i := fun he => hinrtP (by rw [← he]; exact hxmem)
              have hxlst : x ≠ lst := by
                rw [hlstz]
                exact fun he => hPQout x hxmem (by rw [he]; exact hzQ)
              have hxlp : x ≠ lp := by rw [hlpa]; exact hxa
              rw [hNE x, if_neg hxi2, if_neg hxlst, if_neg hxlp]
            · intro y hy
              simp only [List.tail_cons] at hy
              have hyi : y ≠ i := fun he => hiP (by rw [← he]; exact hy)
              have hyrt : y ≠ s.root := fun he => hrtP (by rw [← he]; exact hy)
              have hyln : y ≠ ln := by
                rw [hlnq]
                exact fun he => hPQout y (by simp [hy])
                  (by rw [he]; exact List.mem_cons_self q Q2)
              rw [hPE y, if_neg hyi, if_neg hyrt, if_neg hyln]
          · -- segment q :: Q2
            refine chain'_of_reads ?_ ?_ hchq
            · intro x hx
              have hxmem : x ∈ q :: Q2 := List.dropLast_subset _ hx
              have hxi2 : x ≠ i := fun he => hiQ (by rw [← he]; exact hxmem)
              have hxlst : x ≠ lst := by
                rw [hlstz]
                intro he
                refine getLast_not_mem_dropLast hndQ (List.cons_ne_nil q Q2) ?_
                rw [hzdef, ← he]
                exact hx
              have hxlp : x ≠ lp := by
                rw [hlpa]
                exact fun he => hPQout a hamem (by rw [← he]; exact hxmem)
              rw [hNE x, if_neg hxi2, if_neg hxlst, if_neg hxlp]
            · intro y hy
              simp only [List.tail_cons] at hy
              have hyi : y ≠ i := fun he => hiQ (by rw [← he]; simp [hy])
              have hyrt : y ≠ s.root := fun he => hrtQ (by rw [← he]; simp [hy])
              have hyln : y ≠ ln := by
                rw [hlnq]
                intro he
                exact (List.nodup_cons.mp hndQ).1 (by rw [← he]; exact hy)
              rw [hPE y, if_neg hyi, if_neg hyrt, if_neg hyln]
          · -- junction a → q
            intro x hx y hy
            rw [List.getLast?_eq_getLast _ (List.cons_ne_nil s.root P), hadef] at hx
            simp only [List.head?_cons, Option.mem_some_iff] at hx hy
            subst hx
            subst hy
            constructor
            · rw [hNE a, if_neg hai, if_neg halst, if_pos hlpa.symm, hlnq]
            · have hqi : q ≠ i := fun he => hiq he.symm
              have hqrt : q ≠ s.root := fun he => hrtq he.symm
              rw [hPE q, if_neg hqi, if_neg hqrt, if_pos hlnq.symm]
              exact hlpa
        · -- junction z → i
          intro x hx y hy
          rw [List.getLast?_append_of_ne_nil _ (List.cons_ne_nil q Q2),
            List.getLast?_eq_getLast _ (List.cons_ne_nil q Q2), hzdef] at hx
          simp only [List.head?_cons, Option.mem_some_iff] at hx hy
          subst hx
          subst hy
          constructor
          · rw [hNE z, if_neg (fun he => hiz he.symm), if_pos hlstz.symm]
          · rw [hPE i, if_pos rfl]
            exact hlstz
      · -- wrap-around: next of the promoted node is the root
        rw [hNE i, if_pos rfl]
      · -- wrap-around: prev of the root is the promoted node
        rw [hPE s.root, if_neg (fun he => hirt he.symm), if_pos rfl]
    · exact (hKE s.root).trans h.rootKey
    · exact (hRE s.root).trans h.rootRes
    · intro p hp
      show (m6 p.2).key = some p.1.1 ∧ (m6 p.2).result = some p.1.2
      rw [hKE p.2, hRE p.2]
      rw [List.zip_append hAB, List.zip_append hlen.symm] at hp
      have hpold : p ∈ (A ++ (k, r) :: B).zip (P ++ i :: q :: Q2) := by
        rw [List.zip_append hlen.symm, List.zip_cons_cons]
        rcases List.mem_append.mp hp with hh | hh
        · rcases List.mem_append.mp hh with hh2 | hh2
          · exact List.mem_append.mpr (Or.inl hh2)
          · exact List.mem_append.mpr (Or.inr (List.mem_cons.mpr (Or.inr hh2)))
        · simp only [List.zip_cons_cons, List.zip_nil_right] at hh
          simp at hh
          rw [hh]
          exact List.mem_append.mpr (Or.inr (List.mem_cons.mpr (Or.inl rfl)))
      exact h.nodeData p hpold
    · show s.cache.Perm _
      refine h.cachePerm.trans (List.Perm.map _ ?_)
      rw [List.zip_append hlen.symm, List.zip_append hAB,
        List.zip_append hlen.symm, List.zip_cons_cons]
      simp only [List.zip_cons_cons, List.zip_nil_right]
      rw [List.append_assoc]
      refine List.Perm.append_left _ ?_
      exact (List.perm_append_singleton _ _).symm
    · exact ((hpermkvs.map Prod.fst).symm).nodup h.keysNodup

end LruCache

namespace LruCache

variable {K R E : Type}


theorem find_erase_of_keysNodup [BEq K] [LawfulBEq K] {A B : List (K × R)}
    {k : K} {r : R} (hnd : ((A ++ (k, r) :: B).map Prod.fst).Nodup) :
    (A ++ (k, r) :: B).find? (fun p => p.1 == k) = some (k, r) ∧
      (A ++ (k, r) :: B).eraseP (fun p => p.1 == k) = A ++ B := by
  have hkA : k ∉ A.map Prod.fst := by
    intro hkm
    rw [List.map_append, List.nodup_append] at hnd
    exact hnd.2.2 hkm (by simp)
  have hA : ∀ b ∈ A, ¬((fun p => p.1 == k) b = true) := by
    intro b hb hpb
    simp only [beq_iff_eq] at hpb
    exact hkA (List.mem_map.mpr ⟨b, hb, hpb⟩)
  constructor
  · refine find?_eq_some_of_unique (by simp) (by simp) ?_
    intro x hx hpx
    have hxk : x.1 = k := by simpa using hpx
    rcases List.mem_append.mp hx with hh | hh
    · exact absurd hpx (hA x hh)
    · rcases List.mem_cons.mp hh with hh2 | hh2
      · exact hh2
      · exfalso
        rw [List.map_append, List.nodup_append] at hnd
        have hkB : k ∉ B.map Prod.fst := by
          have := hnd.2.1
          rw [List.map_cons, List.nodup_cons] at this
          exact this.1
        exact hkB (List.mem_map.mpr ⟨x, hh2, hxk⟩)
  · rw [List.eraseP_append_right _ hA, List.eraseP_cons_of_pos (by simp)]


theorem goodF_init [BEq K] (n : Nat) (hn : 1 ≤ n) :
    GoodF n (initState : LState K R) [] := by
  refine ⟨⟨[], ?_⟩, by simp [initState]; omega, by simp⟩
  refine ⟨rfl, by simp, ?_, ?_, rfl, rfl, by simp, by simp [initState], by simp⟩
  · intro i hi
    simp [initState] at hi ⊢
    omega
  · rw [cyclic_nil_iff]
    exact ⟨rfl, rfl⟩

/-- One successful fixed-capacity call refines the abstract recency-list
step and preserves the invariant. -/
theorem goodF_step [BEq K] [LawfulBEq K] {n : Nat} (hn : 1 ≤ n)
    {s : LState K R} {kvs : List (K × R)} (h : GoodF n s kvs) (k : K) (r : R) :
    GoodF n (fixedCall (E := Unit) n s k (Except.ok r)).2
      (absStep s.full kvs k r) := by
  obtain ⟨⟨ids, hmod⟩, hfull, hle⟩ := h
  cases hget : cacheGet s.cache k with
  | some link =>
    obtain ⟨P, Q, A, B, r2, hids, hkvs, hPA⟩ := hmod.lookup_split hget
    subst hids
    subst hkvs
    have hpro := models_promote hmod hPA
    have hfe := find_erase_of_keysNodup (k := k) (r := r2) hmod.keysNodup
    have habs : absStep s.full (A ++ (k, r2) :: B) k r = A ++ B ++ [(k, r2)] := by
      rw [absStep, hfe.1, hfe.2]
    rw [habs]
    have hstep : (fixedCall (E := Unit) n s k (Except.ok r)).2 =
        { (promote s link).2 with hits := (promote s link).2.hits + 1 } := by
      rw [fixedCall, hget]
    rw [hstep]
    have hlen2 : (A ++ B ++ [(k, r2)]).length = (A ++ (k, r2) :: B).length := by
      simp
    refine ⟨⟨P ++ Q ++ [link], ?_⟩, ?_, ?_⟩
    · exact hpro.2.counters ((promote s link).2.hits + 1)
        (promote s link).2.misses (promote s link).2.full
    · show (promote s link).2.full = _
      have hpf : (promote s link).2.full = s.full := rfl
      rw [hpf, hfull, hlen2]
    · omega
  | none =>
    have hnotin : k ∉ kvs.map Prod.fst := (hmod.cacheGet_none_iff k).mp hget
    have hfind : kvs.find? (fun p => p.1 == k) = none := by
      rw [List.find?_eq_none]
      intro x hx hpx
      exact hnotin (List.mem_map.mpr ⟨x, hx, by simpa using hpx⟩)
    have hstep : (fixedCall (E := Unit) n s k (Except.ok r)).2 =
        fixedCallPost n s k r := by
      rw [fixedCall, hget]
    rw [hstep, fixedCallPost, hget]
    simp only [Option.isSome_none, Bool.false_eq_true, if_false]
    cases hf : s.full with
    | true =>
      rw [if_pos rfl]
      have hge : kvs.length ≥ n := by
        have h2 := hfull
        rw [hf] at h2
        exact of_decide_eq_true h2.symm
      obtain ⟨⟨k0, r0⟩, kvs2, rfl⟩ : ∃ p kvs2, kvs = p :: kvs2 := by
        cases kvs with
        | nil => simp at hge; omega
        | cons p kvs2 => exact ⟨p, kvs2, rfl⟩
      obtain ⟨i0, ids2, rfl⟩ : ∃ i0 ids2, ids = i0 :: ids2 := by
        cases ids with
        | nil => have hl := hmod.len; simp at hl
        | cons i0 ids2 => exact ⟨i0, ids2, rfl⟩
      have hev := models_evictInsert hmod k r hnotin
      have habs : absStep true ((k0, r0) :: kvs2) k r = kvs2 ++ [(k, r)] := by
        rw [absStep, hfind]
        simp
      rw [habs]
      have hlen0 : (kvs2 ++ [(k, r)]).length = ((k0, r0) :: kvs2).length := by simp
      refine ⟨⟨ids2 ++ [s.root], ?_⟩, ?_, ?_⟩
      · exact hev.counters (evictInsert s k r).hits
          ((evictInsert s k r).misses + 1) (evictInsert s k r).full
      · show (evictInsert s k r).full = _
        have hef : (evictInsert s k r).full = s.full := rfl
        rw [hef, hfull, hlen0]
      · omega
    | false =>
      rw [if_neg (by simp)]
      have hlt : kvs.length < n := by
        have h2 := hfull
        rw [hf] at h2
        have := of_decide_eq_false h2.symm
        omega
      have hfr := models_freshInsert hmod k r hnotin
      have habs : absStep false kvs k r = kvs ++ [(k, r)] := by
        rw [absStep, hfind]
        simp
      rw [habs]
      refine ⟨⟨ids ++ [s.nalloc], ?_⟩, ?_, ?_⟩
      · exact hfr.counters (freshInsert s k r).hits
          ((freshInsert s k r).misses + 1)
          (decide ((freshInsert s k r).cache.length ≥ n))
      · show decide ((freshInsert s k r).cache.length ≥ n) = _
        rw [hfr.length_cache]
      · simp
        omega

end LruCache

namespace LruCache

variable {K R E : Type}

theorem goodF_clear [BEq K] {n : Nat} (hn : 1 ≤ n) {s : LState K R}
    {kvs : List (K × R)} (h : GoodF n s kvs) : GoodF n (cacheClear s) [] := by
  obtain ⟨⟨ids, hmod⟩, -, -⟩ := h
  refine ⟨⟨[], hmod.clear⟩, ?_, by simp⟩
  show false = decide (([] : List (K × R)).length ≥ n)
  simp
  omega


theorem goodF_runOps [BEq K] [LawfulBEq K] {n : Nat} (hn : 1 ≤ n) (f : K → R) :
    ∀ (ops : List (CacheOp K)) (s : LState K R) (kvs : List (K × R)),
      GoodF n s kvs → GoodF n (runOps n f ops s) (absOpsRun n f ops kvs)
  | [], _, _, h => h
  | CacheOp.call k :: ops, s, kvs, h => by
    have hfeq : s.full = decide (kvs.length ≥ n) := h.2.1
    have hstep := goodF_step hn h k (f k)
    show GoodF n (runOps n f ops (fixedCall (E := Unit) n s k (Except.ok (f k))).2)
      (absOpsRun n f ops (absStep (decide (kvs.length ≥ n)) kvs k (f k)))
    rw [← hfeq]
    exact goodF_runOps hn f ops _ _ hstep
  | CacheOp.clear :: ops, s, kvs, h =>
    goodF_runOps hn f ops _ _ (goodF_clear hn h)

theorem nodup_lt_length_le {l : List Nat} {n : Nat} (hnd : l.Nodup)
    (hb : ∀ x ∈ l, x < n) : l.length ≤ n := by
  have h1 : l.toFinset.card = l.length := List.toFinset_card_of_nodup hnd
  have h2 : l.toFinset ⊆ Finset.range n := by
    intro x hx
    rw [Finset.mem_range]
    exact hb x (List.mem_toFinset.mp hx)
  have h3 := Finset.card_le_card h2
  rw [Finset.card_range] at h3
  omega

/-- Walking the list from `root.next` visits exactly the representing node
indices in order. -/
theorem models_walk [BEq K] {s : LState K R} {ids : List Nat}
    {kvs : List (K × R)} (h : Models s ids kvs) : walk s = ids := by
  cases ids with
  | nil =>
    have hadj := (cyclic_nil_iff _ _).mp h.chain
    rw [walk, hadj.1, walkIds_root]
  | cons i ids2 =>
    have hch := h.chain
    rw [cyclic] at hch
    obtain ⟨hadj, hch2⟩ := List.chain'_cons.mp hch
    have hle := nodup_lt_length_le h.nodup h.bound
    rw [walk, hadj.1]
    refine walkIds_eq s.nodes s.root (ids2) i s.nalloc ?_ ?_ ?_
    · simpa [List.append_eq] using hch2
    · exact (List.nodup_cons.mp h.nodup).1
    · simp at hle
      omega

theorem map_nodes_key_eq (g : Nat → Option K) :
    ∀ (ids : List Nat) (kvs : List (K × R)), ids.length = kvs.length →
      (∀ q ∈ kvs.zip ids, g q.2 = some q.1.1) →
      ids.map g = kvs.map (fun p => some p.1)
  | [], [], _, _ => rfl
  | [], _ :: _, h, _ => by simp at h
  | _ :: _, [], h, _ => by simp at h
  | i :: ids, kv :: kvs, hlen, hdat => by
    rw [List.map_cons, List.map_cons]
    have h1 : g i = some kv.1 := hdat (kv, i) (by rw [List.zip_cons_cons]; simp)
    rw [h1, map_nodes_key_eq g ids kvs (by simpa using hlen)
      (fun q hq => hdat q (by rw [List.zip_cons_cons]; simp [hq]))]

/-- The keys seen on a walk are exactly the abstract keys, in recency
order. -/
theorem models_walkKeys [BEq K] {s : LState K R} {ids : List Nat}
    {kvs : List (K × R)} (h : Models s ids kvs) :
    walkKeys s = kvs.map (fun p => some p.1) := by
  rw [walkKeys, models_walk h]
  exact map_nodes_key_eq _ ids kvs h.len (fun q hq => (h.nodeData q hq).1)

/-- The cache dictionary keys are a permutation of the abstract keys. -/
theorem models_cacheKeys [BEq K] {s : LState K R} {ids : List Nat}
    {kvs : List (K × R)} (h : Models s ids kvs) :
    (s.cache.map Prod.fst).Perm (kvs.map Prod.fst) := by
  have hp := h.cachePerm.map Prod.fst
  refine hp.trans ?_
  rw [List.map_map]
  have heq : ∀ (ids : List Nat) (kvs : List (K × R)), ids.length = kvs.length →
      (kvs.zip ids).map (Prod.fst ∘ fun q => (q.1.1, q.2)) = kvs.map Prod.fst := by
    intro ids kvs hlen
    induction kvs generalizing ids with
    | nil => simp
    | cons kv kvs ih =>
      cases ids with
      | nil => simp at hlen
      | cons i ids2 =>
        rw [List.zip_cons_cons, List.map_cons, List.map_cons,
          ih ids2 (by simpa using hlen)]
        rfl
  rw [heq ids kvs h.len]

/-- The root is self-linked exactly when the store is empty. -/
theorem models_empty_iff [BEq K] {s : LState K R} {ids : List Nat}
    {kvs : List (K × R)} (h : Models s ids kvs) :
    ((s.nodes s.root).next = s.root ∧ (s.nodes s.root).prev = s.root) ↔
      s.cache = [] := by
  constructor
  · rintro ⟨hnx, -⟩
    cases ids with
    | nil =>
      have hkvs : kvs = [] :=
        List.eq_nil_of_length_eq_zero (by simpa using h.len.symm)
      subst hkvs
      have := h.cachePerm
      simpa using this.eq_nil
    | cons i ids2 =>
      exfalso
      have hch := h.chain
      rw [cyclic] at hch
      obtain ⟨hadj, -⟩ := List.chain'_cons.mp hch
      have hri : s.root = i := by rw [← hadj.1, hnx]
      exact (List.nodup_cons.mp h.nodup).1 (by rw [hri]; simp)
  · intro hc
    have hzlen : kvs.length = 0 := by
      have := h.length_cache
      rw [hc] at this
      simpa using this.symm
    have hkvs : kvs = [] := List.eq_nil_of_length_eq_zero hzlen
    subst hkvs
    have hids : ids = [] := List.eq_nil_of_length_eq_zero (by simpa using h.len)
    subst hids
    have hadj := (cyclic_nil_iff _ _).mp h.chain
    exact ⟨hadj.1, hadj.2⟩

end LruCache

namespace LruCache

variable {K R E : Type}


theorem lastAccAux_append_self [BEq K] [LawfulBEq K] (k : K) :
    ∀ (p : List K), lastAccAux (p ++ [k]) k = some p.length
  | [] => by simp [lastAccAux]
  | a :: p => by
    rw [List.cons_append, lastAccAux, lastAccAux_append_self k p]
    rfl

theorem lastAccAux_append_ne [BEq K] [LawfulBEq K] {c k : K} (hne : c ≠ k) :
    ∀ (p : List K), lastAccAux (p ++ [k]) c = lastAccAux p c
  | [] => by
    simp only [List.nil_append, lastAccAux]
    have hkc : (k == c) = false := by
      rw [beq_eq_false_iff_ne]
      exact fun he => hne he.symm
    rw [hkc]
    rfl
  | a :: p => by
    rw [List.cons_append, lastAccAux, lastAccAux_append_ne hne p, lastAccAux]

theorem lastAccAux_lt_length [BEq K] :
    ∀ {p : List K} {c : K} {j : Nat}, lastAccAux p c = some j → j < p.length
  | [], c, j, h => by simp [lastAccAux] at h
  | a :: p, c, j, h => by
    rw [lastAccAux] at h
    cases hr : lastAccAux p c with
    | some j2 =>
      rw [hr] at h
      simp at h
      have := lastAccAux_lt_length hr
      simp
      omega
    | none =>
      rw [hr] at h
      by_cases ha : (a == c) = true
      · rw [if_pos ha] at h
        simp at h
        simp
        omega
      · rw [if_neg ha] at h
        cases h


/-- Appending entries whose keys avoid `k`, then `k` itself, stays sorted by
last access once the call `k` is appended to the history. -/
theorem accSorted_extend [BEq K] [LawfulBEq K] {p : List K} {k : K}
    {E2 kvs : List (K × R)} (hsub : E2.Sublist kvs)
    (hk : ∀ c ∈ E2.map Prod.fst, c ≠ k)
    (hacc : AccSorted p (kvs.map Prod.fst)) :
    AccSorted (p ++ [k]) (E2.map Prod.fst ++ [k]) := by
  constructor
  · intro c hc
    rcases List.mem_append.mp hc with hh | hh
    · rw [lastAccAux_append_ne (hk c hh)]
      exact hacc.1 c ((hsub.map Prod.fst).mem hh)
    · simp at hh
      rw [hh, lastAccAux_append_self]
      rfl
  · rw [List.pairwise_append]
    refine ⟨?_, by simp, ?_⟩
    · have hpw : (E2.map Prod.fst).Pairwise (fun x y => ∀ jx jy,
          lastAccAux p x = some jx → lastAccAux p y = some jy → jx < jy) :=
        hacc.2.sublist (hsub.map Prod.fst)
      refine List.Pairwise.imp_of_mem ?_ hpw
      intro x y hx hy hxy jx jy hjx hjy
      rw [lastAccAux_append_ne (hk x hx)] at hjx
      rw [lastAccAux_append_ne (hk y hy)] at hjy
      exact hxy jx jy hjx hjy
    · intro x hx y hy jx jy hjx hjy
      simp at hy
      rw [hy, lastAccAux_append_self] at hjy
      rw [lastAccAux_append_ne (hk x hx)] at hjx
      have hlt := lastAccAux_lt_length hjx
      have hjy2 : jy = p.length := by simpa using hjy.symm
      omega

theorem absStep_keysNodup [BEq K] [LawfulBEq K] {kvs : List (K × R)}
    (hnd : (kvs.map Prod.fst).Nodup) (w : Bool) (k : K) (r : R) :
    ((absStep w kvs k r).map Prod.fst).Nodup := by
  rw [absStep]
  cases hf : kvs.find? (fun p => p.1 == k) with
  | some a =>
    have hamem : a ∈ kvs := List.mem_of_find?_eq_some hf
    have hak : a.1 = k := by
      have := List.find?_some hf
      simpa using this
    obtain ⟨A, B, hAB⟩ := List.append_of_mem hamem
    have haeq : a = (k, a.2) := by
      cases a
      simp at hak ⊢
      exact hak
    rw [haeq] at hAB
    subst hAB
    have hfe := find_erase_of_keysNodup (k := k) (r := a.2) hnd
    rw [hfe.2]
    rw [List.map_append, List.map_append, List.nodup_append]
    have hnd2 : ((A ++ B).map Prod.fst).Nodup := by
      have hsub : (A ++ B).Sublist (A ++ (k, a.2) :: B) :=
        List.Sublist.append_left (List.sublist_cons_self _ _) A
      exact hnd.sublist (hsub.map Prod.fst)
    rw [List.map_append] at hnd2
    refine ⟨hnd2, by simp, ?_⟩
    intro c hc hck
    simp at hck
    rw [List.map_append, List.nodup_append] at hnd
    rcases List.mem_append.mp hc with hh | hh
    · exact hnd.2.2 hh (by simp [hck])
    · have h3 := hnd.2.1
      rw [List.map_cons, List.nodup_cons] at h3
      exact h3.1 (by rw [← hck]; exact hh)
  | none =>
    have hknot : ∀ c ∈ kvs.map Prod.fst, c ≠ k := by
      intro c hc hck
      obtain ⟨x, hx, hxk⟩ := List.mem_map.mp hc
      rw [List.find?_eq_none] at hf
      exact hf x hx (by simp [hxk, hck])
    cases w with
    | true =>
      rw [if_pos rfl]
      rw [List.map_append, List.nodup_append]
      refine ⟨(hnd.sublist ((List.tail_sublist kvs).map Prod.fst)), by simp, ?_⟩
      intro c hc hck
      simp at hck
      refine hknot c (((List.tail_sublist kvs).map Prod.fst).mem hc) hck
    | false =>
      rw [if_neg (by simp)]
      rw [List.map_append, List.nodup_append]
      refine ⟨hnd, by simp, ?_⟩
      intro c hc hck
      simp at hck
      exact hknot c hc hck

theorem accSorted_step [BEq K] [LawfulBEq K] {p : List K} {kvs : List (K × R)}
    (hnd : (kvs.map Prod.fst).Nodup) (hacc : AccSorted p (kvs.map Prod.fst))
    (w : Bool) (k : K) (r : R) :
    AccSorted (p ++ [k]) ((absStep w kvs k r).map Prod.fst) := by
  rw [absStep]
  cases hf : kvs.find? (fun p => p.1 == k) with
  | some a =>
    have hamem : a ∈ kvs := List.mem_of_find?_eq_some hf
    have hak : a.1 = k := by
      have := List.find?_some hf
      simpa using this
    obtain ⟨A, B, hAB⟩ := List.append_of_mem hamem
    have haeq : a = (k, a.2) := by
      cases a
      simp at hak ⊢
      exact hak
    rw [haeq] at hAB
    subst hAB
    have hfe := find_erase_of_keysNodup (k := k) (r := a.2) hnd
    rw [hfe.2, List.map_append]
    have hsub : (A ++ B).Sublist (A ++ (k, a.2) :: B) :=
      List.Sublist.append_left (List.sublist_cons_self _ _) A
    refine accSorted_extend hsub ?_ hacc
    intro c hc hck
    rw [List.map_append] at hc
    rw [List.map_append, List.nodup_append] at hnd
    rcases List.mem_append.mp hc with hh | hh
    · exact hnd.2.2 hh (by simp [hck])
    · have h3 := hnd.2.1
      rw [List.map_cons, List.nodup_cons] at h3
      exact h3.1 (by rw [← hck]; exact hh)
  | none =>
    have hknot : ∀ c ∈ kvs.map Prod.fst, c ≠ k := by
      intro c hc hck
      obtain ⟨x, hx, hxk⟩ := List.mem_map.mp hc
      rw [List.find?_eq_none] at hf
      exact hf x hx (by simp [hxk, hck])
    cases w with
    | true =>
      rw [if_pos rfl]
      rw [List.map_append]
      refine accSorted_extend (List.tail_sublist kvs) ?_ hacc
      intro c hc
      exact hknot c (((List.tail_sublist kvs).map Prod.fst).mem hc)
    | false =>
      rw [if_neg (by simp)]
      rw [List.map_append]
      exact accSorted_extend (List.Sublist.refl kvs) hknot hacc

end LruCache

namespace LruCache

variable {K R E : Type}


theorem runFixed_cons [BEq K] (n : Nat) (f : K → R) (k : K) (ks : List K)
    (s : LState K R) :
    runFixed n f (k :: ks) s =
      runFixed n f ks (fixedCall (E := Unit) n s k (Except.ok (f k))).2 := rfl

theorem runFixed_append [BEq K] (n : Nat) (f : K → R) :
    ∀ (l1 l2 : List K) (s : LState K R),
      runFixed n f (l1 ++ l2) s = runFixed n f l2 (runFixed n f l1 s)
  | [], _, _ => rfl
  | k :: l1, l2, s => by
    rw [List.cons_append, runFixed_cons, runFixed_cons, runFixed_append n f l1 l2]

theorem absCallsRun_append [BEq K] (n : Nat) (f : K → R) :
    ∀ (l1 l2 : List K) (kvs : List (K × R)),
      absCallsRun n f (l1 ++ l2) kvs = absCallsRun n f l2 (absCallsRun n f l1 kvs)
  | [], _, _ => rfl
  | k :: l1, l2, kvs => by
    rw [List.cons_append, absCallsRun, absCallsRun, absCallsRun_append n f l1 l2]

theorem goodF_runCalls [BEq K] [LawfulBEq K] {n : Nat} (hn : 1 ≤ n) (f : K → R) :
    ∀ (ks : List K) (s : LState K R) (kvs : List (K × R)),
      GoodF n s kvs → GoodF n (runFixed n f ks s) (absCallsRun n f ks kvs)
  | [], _, _, h => h
  | k :: ks, s, kvs, h => by
    have hfeq : s.full = decide (kvs.length ≥ n) := h.2.1
    have hstep := goodF_step hn h k (f k)
    show GoodF n (runFixed n f ks (fixedCall (E := Unit) n s k (Except.ok (f k))).2)
      (absCallsRun n f ks (absStep (decide (kvs.length ≥ n)) kvs k (f k)))
    rw [← hfeq]
    exact goodF_runCalls hn f ks _ _ hstep

theorem accSorted_runCalls [BEq K] [LawfulBEq K] (n : Nat) (f : K → R) :
    ∀ (ks q : List K) (kvs : List (K × R)),
      (kvs.map Prod.fst).Nodup → AccSorted q (kvs.map Prod.fst) →
      AccSorted (q ++ ks) ((absCallsRun n f ks kvs).map Prod.fst)
  | [], q, kvs, _, hacc => by simpa using hacc
  | k :: ks, q, kvs, hnd, hacc => by
    have hstep := accSorted_step hnd hacc (decide (kvs.length ≥ n)) k (f k)
    have hnd2 := absStep_keysNodup hnd (decide (kvs.length ≥ n)) k (f k)
    have hrec := accSorted_runCalls n f ks (q ++ [k]) _ hnd2 hstep
    show AccSorted (q ++ k :: ks)
      ((absCallsRun n f ks (absStep (decide (kvs.length ≥ n)) kvs k (f k))).map
        Prod.fst)
    have hq : q ++ k :: ks = (q ++ [k]) ++ ks := by simp
    rw [hq]
    exact hrec

theorem absCallsRun_fresh [BEq K] [LawfulBEq K] (n : Nat) (f : K → R)
    (keys : Nat → K) (hinj : Function.Injective keys) :
    ∀ (m : Nat), m ≤ n →
      absCallsRun n f ((List.range m).map keys) [] =
        (List.range m).map (fun j => (keys j, f (keys j)))
  | 0, _ => rfl
  | m + 1, hm => by
    rw [List.range_succ, List.map_append, absCallsRun_append,
      absCallsRun_fresh n f keys hinj m (by omega)]
    show absCallsRun n f [] _ = _
    rw [absCallsRun]
    have hfind : ((List.range m).map (fun j => (keys j, f (keys j)))).find?
        (fun p => p.1 == keys m) = none := by
      rw [List.find?_eq_none]
      intro x hx hpx
      obtain ⟨j, hj, hjx⟩ := List.mem_map.mp hx
      have hx1 : x.1 = keys m := by simpa using hpx
      have hjm : keys j = keys m := by rw [← hjx] at hx1; exact hx1
      have := hinj hjm
      simp at hj
      omega
    rw [absStep, hfind]
    have hlen : ((List.range m).map (fun j => (keys j, f (keys j)))).length = m := by
      simp
    rw [hlen]
    rw [if_neg (by simp; omega)]
    simp [absCallsRun]

end LruCache

namespace LruCache

variable {K R E : Type}

/-! ### Branch lemmas of the memory-pressure wrapper -/

theorem memCall_not_full [BEq K] {threshold : Nat} {s : LState K R} {k : K}
    {r : R} (avail : Nat) (hget : cacheGet s.cache k = none)
    (hfull : s.full = false) :
    memCall (E := E) threshold (Except.ok avail) s k (Except.ok r) =
      (Except.ok (some r),
        { freshInsert s k r with full := decide (avail < threshold)
                                 misses := s.misses + 1 }) := by
  simp only [memCall, memCallPost, hget]
  simp only [Option.isSome_none, Bool.false_eq_true, if_false]
  rw [hfull]
  rw [if_neg (by simp)]
  rfl

theorem memCall_full_probe_free [BEq K] {threshold : Nat} {s : LState K R}
    (hfull : s.full = true) (k : K) (compute : Except E R)
    (p1 p2 : Except E Nat) :
    memCall threshold p1 s k compute = memCall threshold p2 s k compute := by
  simp only [memCall]
  cases hget : cacheGet s.cache k with
  | some link => rfl
  | none =>
    cases compute with
    | error e => rfl
    | ok r =>
      simp only [memCallPost, hget]
      simp only [Option.isSome_none, Bool.false_eq_true, if_false]
      rw [hfull]
      rw [if_pos rfl, if_pos rfl]

theorem memCall_full_evict_eq [BEq K] {threshold : Nat} {s : LState K R} {k : K}
    {r : R} (p : Except E Nat) (hget : cacheGet s.cache k = none)
    (hfull : s.full = true) :
    memCall threshold p s k (Except.ok r) =
      (Except.ok (some r), { evictInsert s k r with misses := s.misses + 1 }) := by
  simp only [memCall, memCallPost, hget]
  simp only [Option.isSome_none, Bool.false_eq_true, if_false]
  rw [hfull]
  rw [if_pos rfl]
  rfl

theorem memCall_probe_error [BEq K] {threshold : Nat} {s : LState K R} {k : K}
    {r : R} (e : E) (hget : cacheGet s.cache k = none) (hfull : s.full = false) :
    memCall threshold (Except.error e) s k (Except.ok r) =
      (Except.error e, freshInsert s k r) := by
  simp only [memCall, memCallPost, hget]
  simp only [Option.isSome_none, Bool.false_eq_true, if_false]
  rw [hfull]
  rw [if_neg (by simp)]

theorem runMem_cons [BEq K] (threshold : Nat) (f : K → R) (kp : K × Nat)
    (kps : List (K × Nat)) (s : LState K R) :
    runMem threshold f (kp :: kps) s =
      runMem threshold f kps
        (memCall (E := Unit) threshold (Except.ok kp.2) s kp.1
          (Except.ok (f kp.1))).2 := rfl

/-! ### Slot reuse facts of the eviction branch -/

theorem evictInsert_nalloc [BEq K] (s : LState K R) (k : K) (r : R) :
    (evictInsert s k r).nalloc = s.nalloc := rfl

theorem find?_append_of_none {α : Type} {p : α → Bool} :
    ∀ {l1 : List α} (l2 : List α), l1.find? p = none →
      (l1 ++ l2).find? p = l2.find? p
  | [], _, _ => rfl
  | a :: l1, l2, h => by
    by_cases hpa : p a = true
    · rw [List.find?_cons_of_pos _ hpa] at h
      cases h
    · rw [List.find?_cons_of_neg _ hpa] at h
      rw [List.cons_append, List.find?_cons_of_neg _ hpa]
      exact find?_append_of_none l2 h

/-- The new entry of the eviction branch is stored in the old root sentinel
node: no fresh slot is allocated. -/
theorem evictInsert_cacheGet_self [BEq K] [LawfulBEq K] {s : LState K R}
    {k : K} (r : R) (hget : cacheGet s.cache k = none) :
    cacheGet (evictInsert s k r).cache k = some s.root := by
  have hall : ∀ q ∈ s.cache, ¬((fun p => p.1 == k) q = true) := by
    rw [cacheGet, Option.map_eq_none'] at hget
    exact List.find?_eq_none.mp hget
  have hbr : ∀ (o : Option K),
      (((match o with
        | some x => cacheDel s.cache x
        | none => s.cache : List (K × Nat))).find? (fun p => p.1 == k)) = none := by
    intro o
    cases o with
    | none => exact List.find?_eq_none.mpr hall
    | some x =>
      refine List.find?_eq_none.mpr ?_
      intro q hq
      exact hall q (List.mem_of_mem_filter hq)
  have hc : (evictInsert s k r).cache =
      (match (setResult (setKey s.nodes s.root (some k)) s.root (some r)
          ((setResult (setKey s.nodes s.root (some k)) s.root (some r))
            s.root).next).key with
        | some x => cacheDel s.cache x
        | none => s.cache) ++ [(k, s.root)] := rfl
  rw [hc, cacheGet, find?_append_of_none _ (hbr _)]
  rw [List.find?_cons_of_pos _ (by simp)]
  rfl

end LruCache

namespace LruCache

variable {K R E : Type}


/-- The element being inserted is a member of the result of `insertSorted`. -/
theorem mem_insertSorted_self (x : String × PyVal) :
    ∀ (l : List (String × PyVal)), x ∈ insertSorted x l
  | [] => by simp [insertSorted]
  | y :: ys => by
    rw [insertSorted]
    by_cases h : x.1 ≤ y.1
    · rw [if_pos h]
      simp
    · rw [if_neg h]
      simp [mem_insertSorted_self x ys]

/-- `insertSorted` keeps the members of the list it inserts into. -/
theorem mem_insertSorted_of_mem (x y : String × PyVal) :
    ∀ (l : List (String × PyVal)), y ∈ l → y ∈ insertSorted x l
  | [], hy => absurd hy (by simp)
  | y2 :: ys, hy => by
    rw [insertSorted]
    by_cases h : x.1 ≤ y2.1
    · rw [if_pos h]
      simp only [List.mem_cons]
      exact Or.inr (List.mem_cons.mp hy)
    · rw [if_neg h]
      rcases List.mem_cons.mp hy with h1 | h1
      · simp [h1]
      · simp [mem_insertSorted_of_mem x y ys h1]

/-- Sorting the keyword items keeps every item. -/
theorem mem_sortKwds (y : String × PyVal) :
    ∀ (l : List (String × PyVal)), y ∈ l → y ∈ sortKwds l
  | [], hy => absurd hy (by simp)
  | x :: xs, hy => by
    rw [sortKwds]
    rcases List.mem_cons.mp hy with h1 | h1
    · rw [h1]
      exact mem_insertSorted_self x (sortKwds xs)
    · exact mem_insertSorted_of_mem x y (sortKwds xs) (mem_sortKwds y xs h1)

/-- Every keyword item's value element appears in the flattened keyword part
of the key tuple (lines 56-57). -/
theorem val_mem_kwdFold (q : String × PyVal) :
    ∀ (l : List (String × PyVal)), q ∈ l →
      KeyElem.val q.2 ∈ l.foldr
        (fun it acc => KeyElem.val (PyVal.vstr it.1) :: KeyElem.val it.2 :: acc)
        []
  | [], hq => absurd hq (by simp)
  | x :: xs, hq => by
    rw [List.foldr_cons]
    rcases List.mem_cons.mp hq with h1 | h1
    · rw [h1]
      simp
    · simp [val_mem_kwdFold q xs h1]

/-- Key building fails with the unhashable-argument `TypeError` whenever some
positional argument or some keyword value is unhashable, in every mode: the
argument values are flattened into the key tuple (lines 52-57) and
`_HashedSeq` hashes the whole tuple (line 33). -/
theorem make_key_unhashable (args : List PyVal) (kwds : List (String × PyVal))
    (typed : Bool) {oid : Nat} {nm : String}
    (hv : PyVal.vlist oid ∈ args ∨ (nm, PyVal.vlist oid) ∈ kwds) :
    make_key args kwds typed = Except.error PyErr.unhashable := by
  simp only [make_key]
  have hmem : KeyElem.val (PyVal.vlist oid) ∈
      args.map KeyElem.val ++
        (if kwds.isEmpty then []
         else KeyElem.mark ::
          (sortKwds kwds).foldr
            (fun it acc => KeyElem.val (PyVal.vstr it.1) :: KeyElem.val it.2 :: acc)
            []) ++
        (if typed then
          args.map (fun v => KeyElem.typ (typeOf v)) ++
            (if kwds.isEmpty then []
             else (sortKwds kwds).map (fun it => KeyElem.typ (typeOf it.2)))
         else []) := by
    rcases hv with hva | hvk
    · refine List.mem_append.mpr (Or.inl (List.mem_append.mpr (Or.inl ?_)))
      exact List.mem_map.mpr ⟨PyVal.vlist oid, hva, rfl⟩
    · refine List.mem_append.mpr (Or.inl (List.mem_append.mpr (Or.inr ?_)))
      have hne : kwds.isEmpty = false := by
        cases kwds with
        | nil => simp at hvk
        | cons a l => rfl
      rw [hne]
      rw [if_neg (by simp)]
      refine List.mem_cons.mpr (Or.inr ?_)
      exact val_mem_kwdFold (nm, PyVal.vlist oid) (sortKwds kwds)
        (mem_sortKwds (nm, PyVal.vlist oid) kwds hvk)
  generalize hK : args.map KeyElem.val ++ _ ++ _ = KEY at hmem ⊢
  have herr : hashedSeq KEY = Except.error PyErr.unhashable := by
    have hallf : KEY.all elemHashable = false := by
      refine Bool.eq_false_iff.mpr ?_
      intro htr
      have := List.all_eq_true.mp htr _ hmem
      simp [elemHashable, hashable] at this
    rw [hashedSeq, hallf]
    rw [if_neg (by simp)]
  clear hK
  cases KEY with
  | nil => simp at hmem
  | cons e rest =>
    cases e with
    | val v =>
      cases rest with
      | nil =>
        simp at hmem
        subst hmem
        show (if !typed && fasttypes.contains (typeOf (PyVal.vlist oid)) then
            Except.ok (PyKey.bare (PyVal.vlist oid))
          else hashedSeq [KeyElem.val (PyVal.vlist oid)]) =
            Except.error PyErr.unhashable
        rw [if_neg (by simp [typeOf, fasttypes])]
        exact herr
      | cons e2 rest2 => exact herr
    | typ t => exact herr
    | mark => exact herr

end LruCache

namespace LruCache

variable {K R E : Type}

/-! ### The claims -/

/-- Claim C5: for every configuration, if the wrapped compute function raises
an exception on a miss, that exception propagates unchanged to the caller, no
entry is inserted, and neither counter changes: the state after the failed
call equals the state before it, in all four wrapper variants. -/
theorem claim_C5 [BEq K] (n threshold : Nat) (p : Except E Nat)
    (s : LState K R) (u : UState K R) (d : DState) (k : K) (e : E)
    (hf : cacheGet s.cache k = none)
    (hu : (u.cache.find? (fun q => q.1 == k)).map (fun q => q.2) = none) :
    dCall d (Except.error e : Except E R) = (Except.error e, d) ∧
    uCall u k (Except.error e) = (Except.error e, u) ∧
    fixedCall n s k (Except.error e) = (Except.error e, s) ∧
    memCall threshold p s k (Except.error e) = (Except.error e, s) := by
  refine ⟨rfl, ?_, ?_, ?_⟩
  · simp only [uCall, hu]
  · simp only [fixedCall, hf]
  · simp only [memCall, hf]

/-- Witness for C5 at a concrete empty cache of each variant. -/
theorem claim_C5_witness :
    fixedCall (E := Unit) 5 (initState (K := Nat) (R := Nat)) 3
        (Except.error ()) = (Except.error (), initState) ∧
    memCall (E := Unit) 10 (Except.ok 7) (initState (K := Nat) (R := Nat)) 3
        (Except.error ()) = (Except.error (), initState) :=
  ⟨(claim_C5 5 10 (Except.ok 7) initState uInit dInit 3 () rfl rfl).2.2.1,
   (claim_C5 5 10 (Except.ok 7) initState uInit dInit 3 () rfl rfl).2.2.2⟩

/-- Claim C10: for every configuration and every call that completes without
an exception, exactly one of the two counters increases by exactly one and
the other is unchanged, in all four wrapper variants; the `maxsize == 0`
passthrough always counts a miss, and the racing-insert branch of the second
locked section also counts a miss. -/
theorem claim_C10 [BEq K] (n threshold : Nat) (p : Except E Nat)
    (s : LState K R) (u : UState K R) (d : DState) (k : K)
    (compute : Except E R) :
    (∀ r : R, (dCall d compute).1 = Except.ok r →
      (dCall d compute).2.hits = d.hits ∧
      (dCall d compute).2.misses = d.misses + 1) ∧
    (∀ r : R, (uCall u k compute).1 = Except.ok r →
      ((uCall u k compute).2.hits = u.hits + 1 ∧
        (uCall u k compute).2.misses = u.misses) ∨
      ((uCall u k compute).2.hits = u.hits ∧
        (uCall u k compute).2.misses = u.misses + 1)) ∧
    (∀ v : Option R, (fixedCall n s k compute).1 = Except.ok v →
      ((fixedCall n s k compute).2.hits = s.hits + 1 ∧
        (fixedCall n s k compute).2.misses = s.misses) ∨
      ((fixedCall n s k compute).2.hits = s.hits ∧
        (fixedCall n s k compute).2.misses = s.misses + 1)) ∧
    (∀ v : Option R, (memCall threshold p s k compute).1 = Except.ok v →
      ((memCall threshold p s k compute).2.hits = s.hits + 1 ∧
        (memCall threshold p s k compute).2.misses = s.misses) ∨
      ((memCall threshold p s k compute).2.hits = s.hits ∧
        (memCall threshold p s k compute).2.misses = s.misses + 1)) ∧
    ((cacheGet s.cache k).isSome = true → ∀ r : R,
      fixedCallPost n s k r = { s with misses := s.misses + 1 }) := by
  refine ⟨?_, ?_, ?_, ?_, ?_⟩
  · cases compute with
    | error e => intro r h; simp [dCall] at h
    | ok r0 => exact fun r _ => ⟨rfl, rfl⟩
  · cases hfind : (u.cache.find? (fun q => q.1 == k)).map (fun q => q.2) with
    | some r0 =>
      intro r h
      left
      simp only [uCall, hfind]
      exact ⟨by trivial, by trivial⟩
    | none =>
      cases compute with
      | error e => intro r h; simp [uCall, hfind] at h
      | ok r0 =>
        intro r h
        right
        simp only [uCall, hfind]
        exact ⟨by trivial, by trivial⟩
  · cases hget : cacheGet s.cache k with
    | some link =>
      intro v h
      left
      simp only [fixedCall, hget]
      exact ⟨rfl, rfl⟩
    | none =>
      cases compute with
      | error e => intro v h; simp [fixedCall, hget] at h
      | ok r0 =>
        intro v h
        right
        simp only [fixedCall, hget]
        rw [fixedCallPost]
        by_cases hs : (cacheGet s.cache k).isSome = true
        · rw [if_pos hs]; exact ⟨rfl, rfl⟩
        · rw [if_neg hs]
          by_cases hfl : s.full = true
          · rw [if_pos hfl]; exact ⟨rfl, rfl⟩
          · rw [if_neg hfl]; exact ⟨rfl, rfl⟩
  · cases hget : cacheGet s.cache k with
    | some link =>
      intro v h
      left
      simp only [memCall, hget]
      exact ⟨rfl, rfl⟩
    | none =>
      cases compute with
      | error e => intro v h; simp [memCall, hget] at h
      | ok r0 =>
        intro v h
        right
        simp only [memCall, hget]
        rw [memCallPost]
        by_cases hs : (cacheGet s.cache k).isSome = true
        · rw [if_pos hs]; exact ⟨rfl, rfl⟩
        · rw [if_neg hs]
          by_cases hfl : s.full = true
          · rw [if_pos hfl]; exact ⟨rfl, rfl⟩
          · rw [if_neg hfl]
            cases p with
            | error e =>
              exfalso
              simp only [memCall, hget] at h
              rw [memCallPost] at h
              rw [if_neg hs, if_neg hfl] at h
              simp at h
            | ok avail => exact ⟨rfl, rfl⟩
  · intro hs r
    rw [fixedCallPost, if_pos hs]

/-- Witness for C10: the racing-insert branch at a concrete state whose dict
already holds the key counts a miss and changes nothing else. -/
theorem claim_C10_witness :
    fixedCallPost 5
        ⟨fun _ => ⟨0, 0, none, none⟩, 1, 0, [(3, 1)], 0, 0, false⟩ 3 (9 : Nat) =
      { nodes := fun _ => (⟨0, 0, none, none⟩ : Node Nat Nat), nalloc := 1,
        root := 0, cache := [(3, 1)], hits := 0, misses := 1, full := false } :=
  (claim_C10 5 10 (Except.ok 7 : Except Unit Nat)
    ⟨fun _ => ⟨0, 0, none, none⟩, 1, 0, [(3, 1)], 0, 0, false⟩ uInit dInit 3
    (Except.ok 9 : Except Unit Nat)).2.2.2.2 (by decide) 9

end LruCache

namespace LruCache

variable {K R E : Type}

/-- Claim C7 counterexample: a probe failure on a fresh-insert miss is not
treated as `is_full = false` and swallowed; it propagates to the caller of
the wrapped function (the entry is inserted and `misses` is left behind). -/
theorem claim_C7_counterexample :
    (memCall (E := Unit) 10 (Except.error ()) (initState (K := Nat) (R := Nat)) 7
        (Except.ok 42)).1 = Except.error () ∧
    (memCall (E := Unit) 10 (Except.error ()) (initState (K := Nat) (R := Nat)) 7
        (Except.ok 42)).2.misses = 0 ∧
    cacheGet (memCall (E := Unit) 10 (Except.error ())
        (initState (K := Nat) (R := Nat)) 7 (Except.ok 42)).2.cache 7 =
      some 1 := by
  refine ⟨rfl, rfl, rfl⟩

/-- Claim C7, amended: when the probe fails on a fresh-insert miss (lookup
missed and the cache was not full), the probe's exception propagates to the
caller; at that point the new entry has already been inserted, while
`misses`, `hits` and `full` keep their pre-call values (the `misses += 1` and
the `full` write come after the probe). -/
theorem claim_C7 [BEq K] [LawfulBEq K] (threshold : Nat) (s : LState K R)
    (k : K) (r : R) (e : E) (hget : cacheGet s.cache k = none)
    (hfull : s.full = false) :
    memCall threshold (Except.error e) s k (Except.ok r) =
      (Except.error e, freshInsert s k r) ∧
    (freshInsert s k r).misses = s.misses ∧
    (freshInsert s k r).hits = s.hits ∧
    (freshInsert s k r).full = false ∧
    cacheGet (freshInsert s k r).cache k = some s.nalloc := by
  have hn : s.cache.find? (fun p => p.1 == k) = none := by
    rw [cacheGet, Option.map_eq_none'] at hget
    exact hget
  refine ⟨memCall_probe_error e hget hfull, rfl, rfl, hfull, ?_⟩
  show cacheGet (s.cache ++ [(k, s.nalloc)]) k = some s.nalloc
  rw [cacheGet, find?_append_of_none _ hn, List.find?_cons_of_pos _ (by simp)]
  rfl

/-- Witness for C7 at the empty initial state. -/
theorem claim_C7_witness :
    memCall (E := Unit) 10 (Except.error ()) (initState (K := Nat) (R := Nat)) 3
        (Except.ok 5) =
      (Except.error (), freshInsert initState 3 5) :=
  (claim_C7 10 initState 3 5 () rfl rfl).1

/-- Claim C6 counterexample: the `maxsize == 0` configuration builds no key
at all, so a call with an unhashable (list) argument does not fail; it
computes, returns the result and increments `misses`. -/
theorem claim_C6_counterexample :
    (dCallArgs (fun _ _ => Except.ok (7 : Nat)) dInit [PyVal.vlist 0] []).1 =
      Except.ok 7 ∧
    (dCallArgs (fun _ _ => Except.ok (7 : Nat)) dInit [PyVal.vlist 0] []).2.misses
      = 1 := by
  exact ⟨rfl, rfl⟩

/-- Claim C6, amended: in the three key-building configurations (bounded,
memory-pressure, unbounded), a call with an unhashable argument — a
positional argument or a keyword value — fails at `_make_key` with the
`TypeError` of hashing, the failure surfaces immediately, and the store, the
counters and the recency structure are left untouched; the `maxsize == 0`
configuration builds no key, so the same call computes normally and
increments `misses` on success. -/
theorem claim_C6 (maxsize threshold : Nat) (typed : Bool) (p : Except PyErr Nat)
    (f : List PyVal → List (String × PyVal) → Except PyErr R)
    (s : LState PyKey R) (u : UState PyKey R) (d : DState)
    (args : List PyVal) (kwds : List (String × PyVal)) (oid : Nat)
    (nm : String)
    (hv : PyVal.vlist oid ∈ args ∨ (nm, PyVal.vlist oid) ∈ kwds) :
    make_key args kwds typed = Except.error PyErr.unhashable ∧
    fixedCallArgs maxsize typed f s args kwds =
      (Except.error PyErr.unhashable, s) ∧
    memCallArgs threshold typed p f s args kwds =
      (Except.error PyErr.unhashable, s) ∧
    uCallArgs typed f u args kwds = (Except.error PyErr.unhashable, u) ∧
    (∀ r : R, f args kwds = Except.ok r →
      dCallArgs f d args kwds = (Except.ok r, { d with misses := d.misses + 1 })) := by
  have hmk := make_key_unhashable args kwds typed hv
  refine ⟨hmk, ?_, ?_, ?_, ?_⟩
  · simp only [fixedCallArgs, hmk]
  · simp only [memCallArgs, hmk]
  · simp only [uCallArgs, hmk]
  · intro r hr
    simp only [dCallArgs, hr, dCall]

/-- Witness for C6 with an unhashable keyword value of a list and no
positional arguments. -/
theorem claim_C6_witness :
    make_key [] [("x", PyVal.vlist 0)] false =
      Except.error PyErr.unhashable :=
  (claim_C6 5 10 false (Except.ok 3) (fun _ _ => Except.ok (0 : Nat)) initState
    uInit dInit [] [("x", PyVal.vlist 0)] 0 "x" (Or.inr (by simp))).1

end LruCache

namespace LruCache

variable {K R E : Type}

/-- Claim C3 counterexample: with threshold 10 and probe readings 5, 100,
100, the second call's evicting insertion does not consult the probe, so
`full` stays set even though the probe reports 100 at or above the
threshold, and the third miss still evicts (key 2 is gone and the cache
still holds a single entry, where the claim predicts growth to two entries
with key 2 retained). -/
theorem claim_C3_counterexample :
    (runMem 10 (fun x => x) [(1, 5), (2, 100)]
        (initState (K := Nat) (R := Nat))).full = true ∧
    (runMem 10 (fun x => x) [(1, 5), (2, 100), (3, 100)]
        (initState (K := Nat) (R := Nat))).cache.length = 1 ∧
    cacheGet (runMem 10 (fun x => x) [(1, 5), (2, 100), (3, 100)]
        (initState (K := Nat) (R := Nat))).cache 2 = none ∧
    decide (100 < 10) = false := by decide

/-- Claim C3, amended: under the `use_memory_up_to` policy the probe is
queried only by non-evicting insertions.  A miss while `full` is unset
inserts without evicting regardless of entry count and then sets `full` from
the probe; once `full` is set, a call's outcome is independent of the probe,
`full` stays set, and a miss evicts the least-recently-used entry (the dict
drops exactly that key and the entry count is preserved). -/
theorem claim_C3 [BEq K] [LawfulBEq K] (threshold : Nat) (s : LState K R)
    (k k0 : K) (r : R) (r0 : R) (avail : Nat) (compute : Except E R)
    (p1 p2 : Except E Nat) (i0 : Nat) (ids2 : List Nat) (kvs2 : List (K × R)) :
    (cacheGet s.cache k = none → s.full = false →
      memCall (E := E) threshold (Except.ok avail) s k (Except.ok r) =
        (Except.ok (some r),
          { freshInsert s k r with full := decide (avail < threshold)
                                   misses := s.misses + 1 })) ∧
    (s.full = true →
      memCall threshold p1 s k compute = memCall threshold p2 s k compute) ∧
    (s.full = true → (memCall threshold p1 s k compute).2.full = true) ∧
    (Models s (i0 :: ids2) ((k0, r0) :: kvs2) → s.full = true →
      k ∉ ((k0, r0) :: kvs2).map Prod.fst →
      memCall threshold p1 s k (Except.ok r) =
        (Except.ok (some r), { evictInsert s k r with misses := s.misses + 1 }) ∧
      cacheGet (evictInsert s k r).cache k0 = none ∧
      (evictInsert s k r).cache.length = s.cache.length) := by
  refine ⟨?_, ?_, ?_, ?_⟩
  · intro hget hfull
    exact memCall_not_full avail hget hfull
  · intro hfull
    exact memCall_full_probe_free hfull k compute p1 p2
  · intro hfull
    cases hget : cacheGet s.cache k with
    | some link =>
      simp only [memCall, hget]
      exact hfull
    | none =>
      cases compute with
      | error e =>
        simp only [memCall, hget]
        exact hfull
      | ok r2 =>
        simp only [memCall, hget]
        rw [memCallPost]
        by_cases hs : (cacheGet s.cache k).isSome = true
        · rw [if_pos hs]
          exact hfull
        · rw [if_neg hs, if_pos hfull]
          exact hfull
  · intro hm hfull hk
    have hget : cacheGet s.cache k = none := (hm.cacheGet_none_iff k).mpr hk
    have hm2 := models_evictInsert hm k r hk
    have hk0 : k0 ∉ (kvs2 ++ [(k, r)]).map Prod.fst := by
      intro hmem
      rw [List.map_append, List.mem_append] at hmem
      rcases hmem with hh | hh
      · have hnd := hm.keysNodup
        rw [List.map_cons, List.nodup_cons] at hnd
        exact hnd.1 hh
      · simp at hh
        apply hk
        rw [List.map_cons]
        simp [hh]
    refine ⟨memCall_full_evict_eq p1 hget hfull, ?_, ?_⟩
    · exact (hm2.cacheGet_none_iff k0).mpr hk0
    · have h1 := hm2.length_cache
      have h2 := hm.length_cache
      rw [h1, h2]
      simp

/-- Witness for C3: a non-evicting insertion at the empty initial state with
a probe reading of 100 against threshold 10. -/
theorem claim_C3_witness :
    memCall (E := Unit) 10 (Except.ok 100) (initState (K := Nat) (R := Nat)) 1
        (Except.ok 1) =
      (Except.ok (some 1),
        { freshInsert initState 1 1 with full := decide (100 < 10),
                                         misses := 1 }) :=
  (claim_C3 10 initState 1 0 1 0 100 (Except.ok 1) (Except.ok 0) (Except.ok 0)
    0 [] []).1 rfl rfl

end LruCache

namespace LruCache

/-- Claim C8 counterexample: with `typed=False`, although `3 == 3.0` holds
under Python equality, the calls `f(3)` and `f(3.0)` do not collide: the
int takes the bare fast path while the float is wrapped in a `_HashedSeq`,
so the second call is a miss and the cache ends with two entries. -/
theorem claim_C8_counterexample :
    pyEq (PyVal.vint 3) (PyVal.vfloat 3) = true ∧
    (uCallArgs false (fun _ _ => Except.ok (0 : Nat))
        (uCallArgs false (fun _ _ => Except.ok (0 : Nat)) uInit
          [PyVal.vint 3] []).2 [PyVal.vfloat 3] []).2.hits = 0 ∧
    (uCallArgs false (fun _ _ => Except.ok (0 : Nat))
        (uCallArgs false (fun _ _ => Except.ok (0 : Nat)) uInit
          [PyVal.vint 3] []).2 [PyVal.vfloat 3] []).2.misses = 2 ∧
    (uCallArgs false (fun _ _ => Except.ok (0 : Nat))
        (uCallArgs false (fun _ _ => Except.ok (0 : Nat)) uInit
          [PyVal.vint 3] []).2 [PyVal.vfloat 3] []).2.cache.length = 2 := by
  decide

/-- Claim C8, amended: with `typed=True`, `f(3)` and `f(3.0)` produce
distinct keys (the value and its type are both part of the key) and distinct
cache entries, the second call being a miss.  With `typed=False` the two
calls also produce distinct entries and the second call is again a miss,
even though `3 == 3.0` under Python equality: the single int argument takes
the bare fast path while the float argument is wrapped, and a bare key never
compares equal to a wrapped one. -/
theorem claim_C8 :
    (make_key [PyVal.vint 3] [] true =
      Except.ok (PyKey.hseq [KeyElem.val (PyVal.vint 3), KeyElem.typ PyType.tint]) ∧
     make_key [PyVal.vfloat 3] [] true =
      Except.ok (PyKey.hseq
        [KeyElem.val (PyVal.vfloat 3), KeyElem.typ PyType.tfloat]) ∧
     keyEq (PyKey.hseq [KeyElem.val (PyVal.vint 3), KeyElem.typ PyType.tint])
        (PyKey.hseq [KeyElem.val (PyVal.vfloat 3), KeyElem.typ PyType.tfloat]) =
      false ∧
     (uCallArgs true (fun _ _ => Except.ok (0 : Nat))
        (uCallArgs true (fun _ _ => Except.ok (0 : Nat)) uInit
          [PyVal.vint 3] []).2 [PyVal.vfloat 3] []).2.hits = 0 ∧
     (uCallArgs true (fun _ _ => Except.ok (0 : Nat))
        (uCallArgs true (fun _ _ => Except.ok (0 : Nat)) uInit
          [PyVal.vint 3] []).2 [PyVal.vfloat 3] []).2.misses = 2 ∧
     (uCallArgs true (fun _ _ => Except.ok (0 : Nat))
        (uCallArgs true (fun _ _ => Except.ok (0 : Nat)) uInit
          [PyVal.vint 3] []).2 [PyVal.vfloat 3] []).2.cache.length = 2) ∧
    (make_key [PyVal.vint 3] [] false = Except.ok (PyKey.bare (PyVal.vint 3)) ∧
     make_key [PyVal.vfloat 3] [] false =
      Except.ok (PyKey.hseq [KeyElem.val (PyVal.vfloat 3)]) ∧
     keyEq (PyKey.bare (PyVal.vint 3))
        (PyKey.hseq [KeyElem.val (PyVal.vfloat 3)]) = false ∧
     pyEq (PyVal.vint 3) (PyVal.vfloat 3) = true) := by
  exact ⟨⟨rfl, rfl, rfl, rfl, rfl, rfl⟩, rfl, rfl, rfl, rfl⟩

end LruCache

namespace LruCache

variable {K R E : Type}

/-- Claim C9: after every single-threaded sequence of operations (calls that
hit, miss with or without eviction, and clears), the keys seen on a walk of
the circular list from `root.next` to `root.prev` are exactly the keys of the
cache dictionary with the same multiplicity, and the root points to itself in
both directions exactly when the dictionary is empty. -/
theorem claim_C9 [BEq K] [LawfulBEq K] (n : Nat) (hn : 1 ≤ n) (f : K → R)
    (ops : List (CacheOp K)) :
    (walkKeys (runOps n f ops (initState : LState K R))).Perm
      ((runOps n f ops (initState : LState K R)).cache.map
        (fun q => some q.1)) ∧
    (((runOps n f ops (initState : LState K R)).nodes
        (runOps n f ops (initState : LState K R)).root).next =
          (runOps n f ops (initState : LState K R)).root ∧
      ((runOps n f ops (initState : LState K R)).nodes
        (runOps n f ops (initState : LState K R)).root).prev =
          (runOps n f ops (initState : LState K R)).root ↔
      (runOps n f ops (initState : LState K R)).cache = []) := by
  obtain ⟨⟨ids, hmod⟩, -, -⟩ :=
    goodF_runOps hn f ops initState [] (goodF_init n hn)
  constructor
  · have h1 := models_walkKeys hmod
    have h3 := models_cacheKeys hmod
    have h4 := h3.map (fun c => (some c : Option K))
    rw [List.map_map, List.map_map] at h4
    rw [h1]
    exact h4.symm
  · exact models_empty_iff hmod

/-- Witness for C9 over a concrete run with a clear and three calls at
capacity one. -/
theorem claim_C9_witness :
    (walkKeys (runOps 1 (fun x => x)
        [CacheOp.call 0, CacheOp.clear, CacheOp.call 1, CacheOp.call 2]
        (initState : LState Nat Nat))).Perm
      ((runOps 1 (fun x => x)
        [CacheOp.call 0, CacheOp.clear, CacheOp.call 1, CacheOp.call 2]
        (initState : LState Nat Nat)).cache.map (fun q => some q.1)) :=
  (claim_C9 1 (by decide) (fun x => x)
    [CacheOp.call 0, CacheOp.clear, CacheOp.call 1, CacheOp.call 2]).1

end LruCache

namespace LruCache

variable {K R E : Type}

/-- Claim C2 counterexample: with capacity 1, the first call stores key 0 in
the freshly allocated node 1; the eviction on the second call stores the new
entry (key 1) in node 0 — the old root sentinel — and rotates the root to
node 1, the slot the evicted entry occupied.  The new entry does not reuse
the evicted entry's slot. -/
theorem claim_C2_counterexample :
    cacheGet (runFixed 1 (fun x => x) [0]
        (initState (K := Nat) (R := Nat))).cache 0 = some 1 ∧
    (runFixed 1 (fun x => x) [0] (initState (K := Nat) (R := Nat))).root = 0 ∧
    cacheGet (runFixed 1 (fun x => x) [0, 1]
        (initState (K := Nat) (R := Nat))).cache 1 = some 0 ∧
    (runFixed 1 (fun x => x) [0, 1] (initState (K := Nat) (R := Nat))).root
      = 1 := by
  decide

/-- Claim C2, amended: with capacity `n ≥ 1`, after `n + 1` calls with
distinct keys in order, the first key has been evicted, the reported current
size is exactly `n`, and no fresh node is allocated by the eviction: the new
entry is stored in the old root sentinel's node, whose dict slot is the old
root index, while the evicted entry's node becomes the new root sentinel. -/
theorem claim_C2 [BEq K] [LawfulBEq K] (n : Nat) (hn : 1 ≤ n) (f : K → R)
    (keys : Nat → K) (hinj : Function.Injective keys) :
    cacheGet (runFixed n f ((List.range (n + 1)).map keys)
        (initState : LState K R)).cache (keys 0) = none ∧
    (cacheInfo (some n) (runFixed n f ((List.range (n + 1)).map keys)
        (initState : LState K R))).currsize = n ∧
    (runFixed n f ((List.range (n + 1)).map keys)
        (initState : LState K R)).nalloc =
      (runFixed n f ((List.range n).map keys)
        (initState : LState K R)).nalloc ∧
    cacheGet (runFixed n f ((List.range (n + 1)).map keys)
        (initState : LState K R)).cache (keys n) =
      some (runFixed n f ((List.range n).map keys)
        (initState : LState K R)).root := by
  obtain ⟨m, rfl⟩ : ∃ m, n = m + 1 := ⟨n - 1, by omega⟩
  obtain ⟨⟨ids, hmod⟩, hfulleq, hle⟩ :=
    goodF_runCalls hn f ((List.range (m + 1)).map keys) initState []
      (goodF_init (m + 1) hn)
  have habs := absCallsRun_fresh (m + 1) f keys hinj (m + 1) le_rfl
  rw [habs] at hmod hfulleq
  have hlen : ((List.range (m + 1)).map
      (fun j => (keys j, f (keys j)))).length = m + 1 := by simp
  have hfull1 : (runFixed (m + 1) f ((List.range (m + 1)).map keys)
      (initState : LState K R)).full = true := by
    rw [hfulleq, hlen]
    simp
  have hknot : keys (m + 1) ∉ ((List.range (m + 1)).map
      (fun j => (keys j, f (keys j)))).map Prod.fst := by
    intro hmem
    rw [List.map_map] at hmem
    obtain ⟨j, hj, hjx⟩ := List.mem_map.mp hmem
    have := hinj hjx
    simp at hj
    omega
  have hget1 : cacheGet (runFixed (m + 1) f ((List.range (m + 1)).map keys)
      (initState : LState K R)).cache (keys (m + 1)) = none :=
    (hmod.cacheGet_none_iff (keys (m + 1))).mpr hknot
  -- expose the head of the abstract list
  have hshape : (List.range (m + 1)).map (fun j => (keys j, f (keys j))) =
      (keys 0, f (keys 0)) ::
        (List.range m).map (fun j => (keys (j + 1), f (keys (j + 1)))) := by
    rw [List.range_succ_eq_map, List.map_cons, List.map_map]
    rfl
  rw [hshape] at hmod hknot
  cases ids with
  | nil =>
    exfalso
    have := hmod.len
    simp at this
  | cons i0 ids2 =>
  -- the n+1st call takes the eviction branch
  have hsplit : (List.range (m + 1 + 1)).map keys =
      (List.range (m + 1)).map keys ++ [keys (m + 1)] := by
    rw [List.range_succ, List.map_append]
    rfl
  have hrun : runFixed (m + 1) f ((List.range (m + 1 + 1)).map keys)
        (initState : LState K R) =
      (fixedCall (E := Unit) (m + 1)
        (runFixed (m + 1) f ((List.range (m + 1)).map keys) initState)
        (keys (m + 1)) (Except.ok (f (keys (m + 1))))).2 := by
    rw [hsplit, runFixed_append]
    rfl
  have hcall : (fixedCall (E := Unit) (m + 1)
        (runFixed (m + 1) f ((List.range (m + 1)).map keys) initState)
        (keys (m + 1)) (Except.ok (f (keys (m + 1))))).2 =
      { evictInsert
          (runFixed (m + 1) f ((List.range (m + 1)).map keys) initState)
          (keys (m + 1)) (f (keys (m + 1))) with
        misses := (runFixed (m + 1) f ((List.range (m + 1)).map keys)
          initState).misses + 1 } := by
    simp only [fixedCall, hget1]
    rw [fixedCallPost, if_neg (by rw [hget1]; simp), if_pos hfull1]
    rfl
  have hm2 := models_evictInsert hmod (keys (m + 1)) (f (keys (m + 1))) hknot
  have hk0 : keys 0 ∉
      (((List.range m).map (fun j => (keys (j + 1), f (keys (j + 1))))) ++
        [(keys (m + 1), f (keys (m + 1)))]).map Prod.fst := by
    intro hmem
    rw [List.map_append, List.mem_append] at hmem
    rcases hmem with hh | hh
    · rw [List.map_map] at hh
      obtain ⟨j, hj, hjx⟩ := List.mem_map.mp hh
      have := hinj hjx
      omega
    · simp at hh
      have := hinj hh
      omega
  refine ⟨?_, ?_, ?_, ?_⟩
  · rw [hrun, hcall]
    show cacheGet (evictInsert
      (runFixed (m + 1) f ((List.range (m + 1)).map keys) initState)
      (keys (m + 1)) (f (keys (m + 1)))).cache (keys 0) = none
    exact (hm2.cacheGet_none_iff (keys 0)).mpr hk0
  · rw [cacheInfo, hrun, hcall]
    show (evictInsert
      (runFixed (m + 1) f ((List.range (m + 1)).map keys) initState)
      (keys (m + 1)) (f (keys (m + 1)))).cache.length = m + 1
    rw [hm2.length_cache]
    simp
  · rw [hrun, hcall]
    rfl
  · rw [hrun, hcall]
    show cacheGet (evictInsert
      (runFixed (m + 1) f ((List.range (m + 1)).map keys) initState)
      (keys (m + 1)) (f (keys (m + 1)))).cache (keys (m + 1)) =
      some (runFixed (m + 1) f ((List.range (m + 1)).map keys) initState).root
    exact evictInsert_cacheGet_self _ hget1

/-- Witness for C2 at capacity one with the identity key sequence. -/
theorem claim_C2_witness :
    cacheGet (runFixed 1 (fun x => x) ((List.range 2).map (fun j => j))
        (initState : LState Nat Nat)).cache 0 = none ∧
    (cacheInfo (some 1) (runFixed 1 (fun x => x)
        ((List.range 2).map (fun j => j))
        (initState : LState Nat Nat))).currsize = 1 ∧
    (runFixed 1 (fun x => x) ((List.range 2).map (fun j => j))
        (initState : LState Nat Nat)).nalloc =
      (runFixed 1 (fun x => x) ((List.range 1).map (fun j => j))
        (initState : LState Nat Nat)).nalloc ∧
    cacheGet (runFixed 1 (fun x => x) ((List.range 2).map (fun j => j))
        (initState : LState Nat Nat)).cache 1 =
      some (runFixed 1 (fun x => x) ((List.range 1).map (fun j => j))
        (initState : LState Nat Nat)).root :=
  claim_C2 1 (by decide) (fun x => x) (fun j => j) (fun a b h => h)

end LruCache

namespace LruCache

variable {K R E : Type}

/-- Claim C4: under the bounded policy, a hit promotes the accessed entry to
the most-recent end of the recency list and bumps `hits`; an eviction on a
full miss removes exactly the least-recently-used entry (the walk's head)
while preserving the entry count; over any call sequence the walk is ordered
by strictly increasing last access; and the concrete capacity-2 scenario
with keys 1, 2, 1, 3, 2 behaves as miss, miss, hit promoting 1, miss
evicting 2, and a final miss for 2. -/
theorem claim_C4 [BEq K] [LawfulBEq K] (n : Nat) (hn : 1 ≤ n) (f : K → R)
    (ops : List (CacheOp K)) (ks : List K) (k : K) :
    (∀ i : Nat,
      cacheGet (runOps n f ops (initState : LState K R)).cache k = some i →
      ∃ X Y : List (Option K),
        walkKeys (runOps n f ops (initState : LState K R)) =
          X ++ some k :: Y ∧
        walkKeys (fixedCall (E := Unit) n
            (runOps n f ops (initState : LState K R)) k
            (Except.ok (f k))).2 = X ++ Y ++ [some k] ∧
        (fixedCall (E := Unit) n (runOps n f ops (initState : LState K R)) k
            (Except.ok (f k))).2.hits =
          (runOps n f ops (initState : LState K R)).hits + 1) ∧
    (cacheGet (runOps n f ops (initState : LState K R)).cache k = none →
      (runOps n f ops (initState : LState K R)).full = true →
      ∃ (e : K) (Y : List (Option K)),
        walkKeys (runOps n f ops (initState : LState K R)) = some e :: Y ∧
        walkKeys (fixedCall (E := Unit) n
            (runOps n f ops (initState : LState K R)) k
            (Except.ok (f k))).2 = Y ++ [some k] ∧
        cacheGet (fixedCall (E := Unit) n
            (runOps n f ops (initState : LState K R)) k
            (Except.ok (f k))).2.cache e = none ∧
        (fixedCall (E := Unit) n (runOps n f ops (initState : LState K R)) k
            (Except.ok (f k))).2.cache.length =
          (runOps n f ops (initState : LState K R)).cache.length) ∧
    (∃ kl : List K,
      walkKeys (runFixed n f ks (initState : LState K R)) = kl.map some ∧
      (∀ c ∈ kl, (lastAccAux ks c).isSome = true) ∧
      kl.Pairwise (fun x y => ∀ jx jy, lastAccAux ks x = some jx →
        lastAccAux ks y = some jy → jx < jy)) ∧
    ((runFixed 2 (fun x => x) [1, 2] (initState : LState Nat Nat)).misses = 2 ∧
     (runFixed 2 (fun x => x) [1, 2] (initState : LState Nat Nat)).hits = 0 ∧
     (runFixed 2 (fun x => x) [1, 2, 1] (initState : LState Nat Nat)).hits
       = 1 ∧
     walkKeys (runFixed 2 (fun x => x) [1, 2, 1]
       (initState : LState Nat Nat)) = [some 2, some 1] ∧
     (runFixed 2 (fun x => x) [1, 2, 1, 3]
       (initState : LState Nat Nat)).cache.length = 2 ∧
     cacheGet (runFixed 2 (fun x => x) [1, 2, 1, 3]
       (initState : LState Nat Nat)).cache 2 = none ∧
     (cacheGet (runFixed 2 (fun x => x) [1, 2, 1, 3]
       (initState : LState Nat Nat)).cache 1).isSome = true ∧
     (cacheGet (runFixed 2 (fun x => x) [1, 2, 1, 3]
       (initState : LState Nat Nat)).cache 3).isSome = true ∧
     (runFixed 2 (fun x => x) [1, 2, 1, 3, 2]
       (initState : LState Nat Nat)).misses = 4 ∧
     (runFixed 2 (fun x => x) [1, 2, 1, 3, 2]
       (initState : LState Nat Nat)).hits = 1) := by
  refine ⟨?_, ?_, ?_, by decide⟩
  · intro i hget
    obtain ⟨⟨ids, hmod⟩, -, -⟩ :=
      goodF_runOps hn f ops initState [] (goodF_init n hn)
    obtain ⟨P, Q, A, B, r2, hids, hkvs, hlenPA⟩ := hmod.lookup_split hget
    rw [hids, hkvs] at hmod
    have hpro := models_promote hmod hlenPA
    have hcall : (fixedCall (E := Unit) n
        (runOps n f ops (initState : LState K R)) k (Except.ok (f k))).2 =
        { (promote (runOps n f ops (initState : LState K R)) i).2 with
          hits := (promote (runOps n f ops (initState : LState K R)) i).2.hits
            + 1 } := by
      simp only [fixedCall, hget]
    have hw : walkKeys ({ (promote (runOps n f ops
          (initState : LState K R)) i).2 with
        hits := (promote (runOps n f ops (initState : LState K R)) i).2.hits
          + 1 }) = (A ++ B ++ [(k, r2)]).map (fun p => some p.1) :=
      models_walkKeys (hpro.2.counters _ _ _)
    refine ⟨A.map (fun p => some p.1), B.map (fun p => some p.1), ?_, ?_, ?_⟩
    · rw [models_walkKeys hmod]
      simp only [List.map_append, List.map_cons]
    · rw [hcall, hw]
      simp only [List.map_append, List.map_cons, List.map_nil]
    · rw [hcall]
      rfl
  · intro hget hfull
    obtain ⟨⟨ids, hmod⟩, hfulleq, -⟩ :=
      goodF_runOps hn f ops initState [] (goodF_init n hn)
    have hlen : (absOpsRun n f ops ([] : List (K × R))).length ≥ n := by
      rw [hfull] at hfulleq
      exact of_decide_eq_true hfulleq.symm
    cases hkvs : absOpsRun n f ops ([] : List (K × R)) with
    | nil =>
      exfalso
      rw [hkvs] at hlen
      simp at hlen
      omega
    | cons kv kvs2 =>
    obtain ⟨k0, r0⟩ := kv
    rw [hkvs] at hmod
    cases ids with
    | nil =>
      exfalso
      have := hmod.len
      simp at this
    | cons i0 ids2 =>
    have hknot := (hmod.cacheGet_none_iff k).mp hget
    have hm2 := models_evictInsert hmod k (f k) hknot
    have hcall : (fixedCall (E := Unit) n
        (runOps n f ops (initState : LState K R)) k (Except.ok (f k))).2 =
        { evictInsert (runOps n f ops (initState : LState K R)) k (f k) with
          misses := (runOps n f ops (initState : LState K R)).misses + 1 } := by
      simp only [fixedCall, hget]
      rw [fixedCallPost, if_neg (by rw [hget]; simp), if_pos hfull]
      rfl
    have hk0 : k0 ∉ (kvs2 ++ [(k, f k)]).map Prod.fst := by
      intro hmem
      rw [List.map_append, List.mem_append] at hmem
      rcases hmem with hh | hh
      · have hnd := hmod.keysNodup
        rw [List.map_cons, List.nodup_cons] at hnd
        exact hnd.1 hh
      · simp at hh
        apply hknot
        rw [List.map_cons]
        simp [hh]
    refine ⟨k0, kvs2.map (fun p => some p.1), ?_, ?_, ?_, ?_⟩
    · rw [models_walkKeys hmod]
      simp only [List.map_cons]
    · rw [hcall]
      have hw : walkKeys ({ evictInsert (runOps n f ops
            (initState : LState K R)) k (f k) with
          misses := (runOps n f ops (initState : LState K R)).misses + 1 })
          = (kvs2 ++ [(k, f k)]).map (fun p => some p.1) :=
        models_walkKeys (hm2.counters _ _ _)
      rw [hw]
      simp only [List.map_append, List.map_cons, List.map_nil]
    · rw [hcall]
      show cacheGet (evictInsert (runOps n f ops
        (initState : LState K R)) k (f k)).cache k0 = none
      exact (hm2.cacheGet_none_iff k0).mpr hk0
    · rw [hcall]
      show (evictInsert (runOps n f ops
        (initState : LState K R)) k (f k)).cache.length =
        (runOps n f ops (initState : LState K R)).cache.length
      rw [hm2.length_cache, hmod.length_cache]
      simp
  · obtain ⟨⟨ids, hmod⟩, -, -⟩ :=
      goodF_runCalls hn f ks initState [] (goodF_init n hn)
    refine ⟨(absCallsRun n f ks []).map Prod.fst, ?_, ?_, ?_⟩
    · rw [models_walkKeys hmod, List.map_map]
      rfl
    · have hacc := accSorted_runCalls n f ks [] [] (by simp)
        ⟨by simp, by simp⟩
      exact hacc.1
    · have hacc := accSorted_runCalls n f ks [] [] (by simp)
        ⟨by simp, by simp⟩
      exact hacc.2

/-- Witness for C4: the recency-ordering component at the concrete capacity-2
run with keys 1, 2, 1. -/
theorem claim_C4_witness :
    ∃ kl : List Nat,
      walkKeys (runFixed 2 (fun x => x) [1, 2, 1]
        (initState : LState Nat Nat)) = kl.map some ∧
      (∀ c ∈ kl, (lastAccAux [1, 2, 1] c).isSome = true) ∧
      kl.Pairwise (fun x y => ∀ jx jy, lastAccAux [1, 2, 1] x = some jx →
        lastAccAux [1, 2, 1] y = some jy → jx < jy) :=
  (claim_C4 2 (by decide) (fun x => x) [] [1, 2, 1] 0).2.2.1

end LruCache

namespace LruCache

variable {K R E : Type}

/-! ### Runs of repeated calls with one key -/

/-- In a state representing the single entry `(k, r)`, the lookup finds the
one node and promoting it preserves the representation. -/
theorem models_single_hit [BEq K] [LawfulBEq K] {s : LState K R} {ids : List Nat}
    {k : K} {r : R} (hmod : Models s ids [(k, r)]) :
    ∃ i0, cacheGet s.cache k = some i0 ∧
      (promote s i0).1 = some r ∧
      Models (promote s i0).2 [i0] [(k, r)] := by
  cases ids with
  | nil =>
    exfalso
    have := hmod.len
    simp at this
  | cons i0 t =>
    cases t with
    | cons j t2 =>
      exfalso
      have := hmod.len
      simp at this
    | nil =>
      have hcache : s.cache = [(k, i0)] := by
        have hp := hmod.cachePerm
        exact List.perm_singleton.mp hp
      have hget : cacheGet s.cache k = some i0 := by
        rw [hcache, cacheGet, List.find?_cons_of_pos _ (by simp)]
        rfl
      have hpro := models_promote (P := []) (Q := []) (A := []) (B := [])
        hmod rfl
      exact ⟨i0, hget, hpro.1, hpro.2⟩

/-- A fixed-capacity call in a single-entry state is a hit: it returns the
stored result, keeps the representation, bumps `hits` and changes nothing
else. -/
theorem fixedCall_hit_single [BEq K] [LawfulBEq K] {s : LState K R}
    {ids : List Nat} {k : K} {r : R} (hmod : Models s ids [(k, r)])
    (n : Nat) (compute : Except E R) :
    ∃ j, (fixedCall n s k compute).1 = Except.ok (some r) ∧
      Models (fixedCall n s k compute).2 [j] [(k, r)] ∧
      (fixedCall n s k compute).2.hits = s.hits + 1 ∧
      (fixedCall n s k compute).2.misses = s.misses ∧
      (fixedCall n s k compute).2.full = s.full := by
  obtain ⟨i0, hget, hpr1, hprM⟩ := models_single_hit hmod
  have hcall : fixedCall n s k compute =
      (Except.ok (promote s i0).1,
        { (promote s i0).2 with hits := (promote s i0).2.hits + 1 }) := by
    simp only [fixedCall, hget]
  refine ⟨i0, ?_, ?_, ?_, ?_, ?_⟩
  · rw [hcall, hpr1]
  · rw [hcall]
    exact hprM.counters _ _ _
  · rw [hcall]
    rfl
  · rw [hcall]
    rfl
  · rw [hcall]
    rfl

/-- A memory-pressure call in a single-entry state is a hit with the same
effect, for any probe reading. -/
theorem memCall_hit_single [BEq K] [LawfulBEq K] {s : LState K R}
    {ids : List Nat} {k : K} {r : R} (hmod : Models s ids [(k, r)])
    (threshold : Nat) (p : Except E Nat) (compute : Except E R) :
    ∃ j, (memCall threshold p s k compute).1 = Except.ok (some r) ∧
      Models (memCall threshold p s k compute).2 [j] [(k, r)] ∧
      (memCall threshold p s k compute).2.hits = s.hits + 1 ∧
      (memCall threshold p s k compute).2.misses = s.misses := by
  obtain ⟨i0, hget, hpr1, hprM⟩ := models_single_hit hmod
  have hcall : memCall threshold p s k compute =
      (Except.ok (promote s i0).1,
        { (promote s i0).2 with hits := (promote s i0).2.hits + 1 }) := by
    simp only [memCall, hget]
  refine ⟨i0, ?_, ?_, ?_, ?_⟩
  · rw [hcall, hpr1]
  · rw [hcall]
    exact hprM.counters _ _ _
  · rw [hcall]
    rfl
  · rw [hcall]
    rfl

/-- Repeated fixed-capacity calls with the cached key are all hits. -/
theorem runFixedT_single [BEq K] [LawfulBEq K] (n : Nat) (f : K → R) (k : K) :
    ∀ (m : Nat) (s : LState K R) (ids : List Nat), Models s ids [(k, f k)] →
      (runFixedT n f (List.replicate m k) s).1 =
        List.replicate m (Except.ok (some (f k))) ∧
      (runFixedT n f (List.replicate m k) s).2.hits = s.hits + m ∧
      (runFixedT n f (List.replicate m k) s).2.misses = s.misses
  | 0, s, ids, _ => ⟨rfl, rfl, rfl⟩
  | m + 1, s, ids, h => by
    obtain ⟨j, h1, hM, hh, hmi, -⟩ :=
      fixedCall_hit_single h n (Except.ok (f k) : Except Unit R)
    rw [List.replicate_succ]
    simp only [runFixedT]
    have ih := runFixedT_single n f k m
      (fixedCall (E := Unit) n s k (Except.ok (f k))).2 [j] hM
    refine ⟨?_, ?_, ?_⟩
    · rw [ih.1, h1, List.replicate_succ]
    · rw [ih.2.1, hh]
      omega
    · rw [ih.2.2, hmi]

/-- Repeated memory-pressure calls with the cached key are all hits, whatever
the probe readings. -/
theorem runMemT_single [BEq K] [LawfulBEq K] (threshold : Nat) (f : K → R)
    (k : K) :
    ∀ (ps : List Nat) (s : LState K R) (ids : List Nat),
      Models s ids [(k, f k)] →
      (runMemT threshold f (ps.map (fun q => (k, q))) s).1 =
        List.replicate ps.length (Except.ok (some (f k))) ∧
      (runMemT threshold f (ps.map (fun q => (k, q))) s).2.hits =
        s.hits + ps.length ∧
      (runMemT threshold f (ps.map (fun q => (k, q))) s).2.misses = s.misses
  | [], s, ids, _ => ⟨rfl, rfl, rfl⟩
  | p :: ps, s, ids, h => by
    obtain ⟨j, h1, hM, hh, hmi⟩ :=
      memCall_hit_single h threshold (Except.ok p : Except Unit Nat)
        (Except.ok (f k))
    rw [List.map_cons]
    simp only [runMemT]
    have ih := runMemT_single threshold f k ps
      (memCall (E := Unit) threshold (Except.ok p) s k (Except.ok (f k))).2
      [j] hM
    refine ⟨?_, ?_, ?_⟩
    · rw [List.length_cons, List.replicate_succ]
      rw [ih.1, h1]
    · rw [ih.2.1, hh, List.length_cons]
      omega
    · rw [ih.2.2, hmi]

/-- Repeated unbounded calls with the cached key are all hits. -/
theorem runUT_single [BEq K] (f : K → R) (k : K) :
    ∀ (m : Nat) (s : UState K R),
      (s.cache.find? (fun q => q.1 == k)).map (fun q => q.2) = some (f k) →
      (runUT f (List.replicate m k) s).1 =
        List.replicate m (Except.ok (f k)) ∧
      (runUT f (List.replicate m k) s).2.hits = s.hits + m ∧
      (runUT f (List.replicate m k) s).2.misses = s.misses ∧
      (runUT f (List.replicate m k) s).2.cache = s.cache
  | 0, s, _ => ⟨rfl, rfl, rfl, rfl⟩
  | m + 1, s, h => by
    have hc : uCall (E := Unit) s k (Except.ok (f k)) =
        (Except.ok (f k), { s with hits := s.hits + 1 }) := by
      simp only [uCall, h]
    rw [List.replicate_succ]
    simp only [runUT, hc]
    have ih := runUT_single f k m { s with hits := s.hits + 1 } h
    refine ⟨?_, ?_, ?_, ?_⟩
    · rw [ih.1, List.replicate_succ]
    · rw [ih.2.1]
      show s.hits + 1 + m = s.hits + (m + 1)
      omega
    · exact ih.2.2.1
    · exact ih.2.2.2

end LruCache

namespace LruCache

variable {K R E : Type}

/-- Claim C1: for every sequence of `m ≥ 1` calls with one key and a
deterministic, total compute function, under each caching configuration
(unbounded, fixed capacity `n ≥ 1`, and memory-pressure with arbitrary probe
readings), only the first call increments `misses`; every later call
increments `hits` and returns the stored result computed on the first
call. -/
theorem claim_C1 [BEq K] [LawfulBEq K] (f : K → R) (k : K) (m : Nat)
    (hm : 1 ≤ m) (n : Nat) (hn : 1 ≤ n) (threshold : Nat) (ps : List Nat) :
    ((runUT f (List.replicate m k) (uInit : UState K R)).1 =
        List.replicate m (Except.ok (f k)) ∧
      (runUT f (List.replicate m k) (uInit : UState K R)).2.hits = m - 1 ∧
      (runUT f (List.replicate m k) (uInit : UState K R)).2.misses = 1) ∧
    ((runFixedT n f (List.replicate m k) (initState : LState K R)).1 =
        List.replicate m (Except.ok (some (f k))) ∧
      (runFixedT n f (List.replicate m k)
        (initState : LState K R)).2.hits = m - 1 ∧
      (runFixedT n f (List.replicate m k)
        (initState : LState K R)).2.misses = 1) ∧
    (ps.length + 1 = m →
      (runMemT threshold f ((k, 0) :: ps.map (fun q => (k, q)))
          (initState : LState K R)).1 =
        List.replicate m (Except.ok (some (f k))) ∧
      (runMemT threshold f ((k, 0) :: ps.map (fun q => (k, q)))
          (initState : LState K R)).2.hits = m - 1 ∧
      (runMemT threshold f ((k, 0) :: ps.map (fun q => (k, q)))
          (initState : LState K R)).2.misses = 1) := by
  obtain ⟨m2, rfl⟩ : ∃ m2, m = m2 + 1 := ⟨m - 1, by omega⟩
  refine ⟨?_, ?_, ?_⟩
  · have hfind : (((uCall (E := Unit) uInit k (Except.ok (f k))).2.cache).find?
        (fun q => q.1 == k)).map (fun q => q.2) = some (f k) := by
      show (([] ++ [(k, f k)] : List (K × R)).find? (fun q => q.1 == k)).map
        (fun q => q.2) = some (f k)
      rw [List.nil_append, List.find?_cons_of_pos _ (by simp)]
      rfl
    have ih := runUT_single f k m2
      (uCall (E := Unit) uInit k (Except.ok (f k))).2 hfind
    rw [List.replicate_succ]
    simp only [runUT]
    refine ⟨?_, ?_, ?_⟩
    · rw [ih.1, List.replicate_succ]
      rfl
    · rw [ih.2.1]
      show (0 : Nat) + m2 = m2 + 1 - 1
      omega
    · rw [ih.2.2.1]
      rfl
  · have h0 : GoodF n (fixedCall (E := Unit) n initState k
        (Except.ok (f k))).2 [(k, f k)] :=
      goodF_step hn (goodF_init n hn) k (f k)
    obtain ⟨⟨ids1, hmod1⟩, -, -⟩ := h0
    have ih := runFixedT_single n f k m2
      (fixedCall (E := Unit) n initState k (Except.ok (f k))).2 ids1 hmod1
    rw [List.replicate_succ]
    simp only [runFixedT]
    refine ⟨?_, ?_, ?_⟩
    · rw [ih.1, List.replicate_succ]
      rfl
    · rw [ih.2.1]
      show (0 : Nat) + m2 = m2 + 1 - 1
      omega
    · rw [ih.2.2]
      rfl
  · intro hml
    have hml2 : ps.length = m2 := by omega
    obtain ⟨⟨ids0, hmod0⟩, -, -⟩ := goodF_init (K := K) (R := R) 1 le_rfl
    have hmf := models_freshInsert hmod0 k (f k) (by simp)
    have ih := runMemT_single threshold f k ps
      (memCall (E := Unit) threshold (Except.ok 0) initState k
        (Except.ok (f k))).2
      (ids0 ++ [(initState : LState K R).nalloc]) (hmf.counters _ _ _)
    simp only [runMemT]
    refine ⟨?_, ?_, ?_⟩
    · rw [ih.1, hml2, List.replicate_succ]
      rfl
    · rw [ih.2.1]
      show (0 : Nat) + ps.length = m2 + 1 - 1
      omega
    · rw [ih.2.2]
      rfl

/-- Witness for C1: three fixed-capacity calls with key 5 at capacity 2. -/
theorem claim_C1_witness :
    (runFixedT 2 (fun x => x + 1) (List.replicate 3 5)
        (initState : LState Nat Nat)).1 =
      List.replicate 3 (Except.ok (some 6)) ∧
    (runFixedT 2 (fun x => x + 1) (List.replicate 3 5)
        (initState : LState Nat Nat)).2.hits = 2 ∧
    (runFixedT 2 (fun x => x + 1) (List.replicate 3 5)
        (initState : LState Nat Nat)).2.misses = 1 :=
  (claim_C1 (fun x => x + 1) 5 3 (by decide) 2 (by decide) 10 [20, 7]).2.1

end LruCache
